import Mathlib

/-!
Verification of the BSON codec (`bson.py`): a shallow embedding of the byte
primitives, structural validator, decoder and encoder, together with proofs
of the specified properties.

Python 2 byte strings are modelled as `List Nat` (each entry one byte),
unicode strings as Lean `String`, floats as their 64-bit IEEE-754 bit
patterns.  Exceptions are modelled by an error type; fueled recursion uses
`Option` with `none` meaning "out of fuel" (an artifact of the model, never
reachable with enough fuel).
-/

set_option maxHeartbeats 1000000

namespace BsonModel

/-- A Python 2 `str`: a sequence of bytes (each `< 256`). -/
abbrev Bytes := List Nat

/-- The Python exceptions the source can raise. -/
inductive PyErr where
  | invalidBSON
  | assertionError
  | unicodeDecodeError
  | keyError
  | indexError
  | structError
  | invalidDocument
  deriving DecidableEq, Repr

/-- Result of a fueled computation: `none` models running out of fuel. -/
abbrev OR (α : Type) := Option (Except PyErr α)

/-! ## Python slicing and indexing -/

/-- Normalize a Python slice bound for a sequence of length `len`:
negative bounds count from the end and are clamped at zero. -/
def pyBound (len : Nat) (i : Int) : Nat :=
  if i < 0 then (i + len).toNat else i.toNat

/-- Python slice `l[a:b]`. -/
def pySlice (l : Bytes) (a b : Int) : Bytes :=
  (l.take (pyBound l.length b)).drop (pyBound l.length a)

/-- Python slice `l[a:]`. -/
def pySliceFrom (l : Bytes) (a : Int) : Bytes :=
  l.drop (pyBound l.length a)

/-- Python indexing `l[i]`: negative indices count from the end;
out-of-range raises `IndexError`. -/
def pyIndexGet (l : Bytes) (i : Int) : Except PyErr Nat :=
  if (if i < 0 then i + l.length else i) < 0 then .error .indexError
  else
    match l.get? (if i < 0 then i + l.length else i).toNat with
    | some b => .ok b
    | none => .error .indexError

/-! ## struct.pack / struct.unpack -/

/-- `struct.unpack("<i", data[:4])[0]`: little-endian signed 32-bit integer;
`none` models `struct.error` (fewer than four bytes). -/
def unpackInt32 : Bytes → Option Int
  | b0 :: b1 :: b2 :: b3 :: _ =>
    some (if b0 + 256 * b1 + 65536 * b2 + 16777216 * b3 < 2147483648 then
            ((b0 + 256 * b1 + 65536 * b2 + 16777216 * b3 : Nat) : Int)
          else ((b0 + 256 * b1 + 65536 * b2 + 16777216 * b3 : Nat) : Int) - 4294967296)
  | _ => none

/-- `struct.pack("<i", n)`: `none` models `struct.error` (value out of the
signed 32-bit range).  The range test is phrased through `Int.toNat` — it is
equivalent to `-2147483648 ≤ n ∧ n < 2147483648` (see `packInt32_some` and
`packInt32_range`) but keeps kernel reduction on a symbolic argument
shallow. -/
def packInt32 (n : Int) : Option Bytes :=
  if n.toNat < 2147483648 ∧ (-n).toNat ≤ 2147483648 then
    some [(n % 4294967296).toNat % 256, (n % 4294967296).toNat / 256 % 256,
          (n % 4294967296).toNat / 65536 % 256, (n % 4294967296).toNat / 16777216 % 256]
  else none

/-- The eight little-endian bytes of a 64-bit pattern
(`struct.pack("<d", value)` on the float with that bit pattern). -/
def packBits64 (u : Nat) : Bytes :=
  [u % 256, u / 256 % 256, u / 65536 % 256, u / 16777216 % 256,
   u / 4294967296 % 256, u / 1099511627776 % 256,
   u / 281474976710656 % 256, u / 72057594037927936 % 256]

/-- `struct.unpack("<d", data[:8])[0]`, as a bit pattern; `none` models
`struct.error`. -/
def unpackBits64 : Bytes → Option Nat
  | b0 :: b1 :: b2 :: b3 :: b4 :: b5 :: b6 :: b7 :: _ =>
    some (b0 + 256 * b1 + 65536 * b2 + 16777216 * b3 + 4294967296 * b4 +
      1099511627776 * b5 + 281474976710656 * b6 + 72057594037927936 * b7)
  | _ => none

/-! ## UTF-8 -/

/-- UTF-8 encoding of one character, by code-point range. -/
def utf8EncodeChar (c : Char) : List Nat :=
  if c.toNat < 128 then [c.toNat]
  else if c.toNat < 2048 then [192 + c.toNat / 64, 128 + c.toNat % 64]
  else if c.toNat < 65536 then
    [224 + c.toNat / 4096, 128 + c.toNat / 64 % 64, 128 + c.toNat % 64]
  else
    [240 + c.toNat / 262144, 128 + c.toNat / 4096 % 64, 128 + c.toNat / 64 % 64,
     128 + c.toNat % 64]

def utf8EncodeList : List Char → List Nat
  | [] => []
  | c :: cs => utf8EncodeChar c ++ utf8EncodeList cs

/-- The UTF-8 encoding of a string (Python `s.encode("utf-8")`). -/
def utf8Encode (s : String) : List Nat := utf8EncodeList s.data

/-- Decode the tail of a two-byte UTF-8 sequence with lead byte `b`. -/
def utf8Dec2 : Nat → List Nat → Option (Nat × List Nat)
  | b, b1 :: r =>
    if 128 ≤ b1 ∧ b1 < 192 then some ((b - 192) * 64 + (b1 - 128), r) else none
  | _, [] => none

/-- Decode the tail of a three-byte UTF-8 sequence with lead byte `b`. -/
def utf8Dec3 : Nat → List Nat → Option (Nat × List Nat)
  | b, b1 :: b2 :: r =>
    if 128 ≤ b1 ∧ b1 < 192 ∧ 128 ≤ b2 ∧ b2 < 192 then
      if (b - 224) * 4096 + (b1 - 128) * 64 + (b2 - 128) < 2048 ∨
         (55296 ≤ (b - 224) * 4096 + (b1 - 128) * 64 + (b2 - 128) ∧
          (b - 224) * 4096 + (b1 - 128) * 64 + (b2 - 128) ≤ 57343) then none
      else some ((b - 224) * 4096 + (b1 - 128) * 64 + (b2 - 128), r)
    else none
  | _, _ => none

/-- Decode the tail of a four-byte UTF-8 sequence with lead byte `b`. -/
def utf8Dec4 : Nat → List Nat → Option (Nat × List Nat)
  | b, b1 :: b2 :: b3 :: r =>
    if 128 ≤ b1 ∧ b1 < 192 ∧ 128 ≤ b2 ∧ b2 < 192 ∧ 128 ≤ b3 ∧ b3 < 192 then
      if (b - 240) * 262144 + (b1 - 128) * 4096 + (b2 - 128) * 64 + (b3 - 128) < 65536 ∨
         1114111 < (b - 240) * 262144 + (b1 - 128) * 4096 + (b2 - 128) * 64 + (b3 - 128) then
        none
      else some ((b - 240) * 262144 + (b1 - 128) * 4096 + (b2 - 128) * 64 + (b3 - 128), r)
    else none
  | _, _ => none

/-- Decode one UTF-8 code point (strict: rejects overlong forms, surrogates
and out-of-range values, as `unicode(data, "utf-8")` rejects malformed
input). Returns the code point and the remaining bytes. -/
def utf8DecodeChar : List Nat → Option (Nat × List Nat)
  | [] => none
  | b :: rest =>
    if b < 128 then some (b, rest)
    else if b < 194 then none
    else if b < 224 then utf8Dec2 b rest
    else if b < 240 then utf8Dec3 b rest
    else if b < 245 then utf8Dec4 b rest
    else none

def utf8DecodeAux : Nat → List Nat → Option (List Char)
  | 0, l => if l.isEmpty then some [] else none
  | fuel + 1, l =>
    if l.isEmpty then some []
    else
      match utf8DecodeChar l with
      | none => none
      | some (u, rest) =>
        match utf8DecodeAux fuel rest with
        | none => none
        | some cs => some (Char.ofNat u :: cs)

/-- `unicode(l, "utf-8")`: `none` models `UnicodeDecodeError`. -/
def utf8Decode (l : List Nat) : Option String :=
  (utf8DecodeAux l.length l).map String.mk

/-! ## Python `str(i)` on natural numbers (decimal digits) -/

def digitChar (d : Nat) : Char := Char.ofNat (48 + d)

def natDigitsAux : Nat → Nat → List Char
  | 0, _ => []
  | fuel + 1, n => if n < 10 then [digitChar n] else natDigitsAux fuel (n / 10) ++ [digitChar (n % 10)]

/-- Python `str(i)` for a natural number. -/
def natStr (n : Nat) : String := String.mk (natDigitsAux (n + 1) n)

def decValAux (cs : List Char) : Nat := cs.foldl (fun a c => 10 * a + (c.toNat - 48)) 0

/-! ## Native Python values

The values the encoder accepts: floats (as 64-bit IEEE-754 bit patterns),
unicode strings, dicts, lists, booleans and ints.  Dicts are association
lists in iteration order; lists are sequences. -/

mutual
inductive PyVal where
  | float (bits : Nat)
  | str (s : String)
  | dict (d : PyFields)
  | list (l : PyList)
  | bool (b : Bool)
  | int (n : Int)
inductive PyFields where
  | nil
  | cons (k : String) (v : PyVal) (rest : PyFields)
inductive PyList where
  | nil
  | cons (v : PyVal) (rest : PyList)
end

/-- Python dict lookup `d[k]` (`none` models `KeyError`). -/
def PyFields.lookup? : PyFields → String → Option PyVal
  | .nil, _ => none
  | .cons k v r, key => if k = key then some v else r.lookup? key

/-- Python dict assignment `d[k] = v`: overwrite in place, or append. -/
def dictInsert : PyFields → String → PyVal → PyFields
  | .nil, k, v => .cons k v .nil
  | .cons k' v' r, k, v =>
    if k' = k then .cons k' v r else .cons k' v' (dictInsert r k v)

def PyFields.keyList : PyFields → List String
  | .nil => []
  | .cons k _ r => k :: r.keyList

def PyFields.size : PyFields → Nat
  | .nil => 0
  | .cons _ _ r => r.size + 1

def listOfPyList : PyList → List PyVal
  | .nil => []
  | .cons v r => v :: listOfPyList r

def pyListOfList : List PyVal → PyList
  | [] => .nil
  | v :: vs => .cons v (pyListOfList vs)

/-! ## The name patterns

`_valid_object_name = re.compile("^.*$")` and
`_valid_array_name = re.compile("^\d+$")`, with Python 2 `re.match`
semantics: `.` does not match a newline, and `$` matches at the end of the
string or just before a trailing newline. -/

/-- `re.match("^.*$", s)` is truthy. -/
def matchAnyName (s : String) : Bool :=
  !(s.data.contains '\n') ||
    (s.data.getLast? == some '\n' && !(s.data.dropLast.contains '\n'))

/-- `re.match("^\d+$", s)` is truthy (`\d` is ASCII `[0-9]` here). -/
def matchDigitName (s : String) : Bool :=
  (if s.data.getLast? == some '\n' then s.data.dropLast else s.data) ≠ [] &&
    (if s.data.getLast? == some '\n' then s.data.dropLast else s.data).all Char.isDigit

/-! ## Byte primitives of the source -/

/-- `_get_int`: read a little-endian int32, catching `struct.error` and
re-raising `InvalidBSON`. -/
def _get_int (data : Bytes) : Except PyErr (Int × Bytes) :=
  match unpackInt32 data with
  | none => .error .invalidBSON
  | some i => .ok (i, data.drop 4)

/-- `_get_c_string`: find the first zero byte (`InvalidBSON` if none),
UTF-8-decode the prefix (`UnicodeDecodeError` on bad bytes), return the
text and the bytes after the terminator. -/
def _get_c_string (data : Bytes) : Except PyErr (String × Bytes) :=
  if data.contains 0 then
    match utf8Decode (data.take (data.indexOf 0)) with
    | none => .error .unicodeDecodeError
    | some s => .ok (s, data.drop (data.indexOf 0 + 1))
  else .error .invalidBSON

/-- `_make_c_string`: UTF-8 encode and append a zero byte. -/
def _make_c_string (s : String) : Bytes := utf8Encode s ++ [0]

/-! ## Validator -/

/-- `_validate_number`: `assert len(data) >= 8; return data[8:]`. -/
def _validate_number (data : Bytes) : Except PyErr Bytes :=
  if 8 ≤ data.length then .ok (data.drop 8) else .error .assertionError

/-- `_validate_string`: read int32 `length`, `assert len(data) >= length`,
`assert data[length - 1] == "\x00"`, `return data[length:]`. -/
def _validate_string (data : Bytes) : Except PyErr Bytes :=
  match _get_int data with
  | .error e => .error e
  | .ok (length, d) =>
    if length ≤ (d.length : Int) then
      match pyIndexGet d (length - 1) with
      | .error e => .error e
      | .ok b => if b = 0 then .ok (pySliceFrom d length) else .error .assertionError
    else .error .assertionError

/-- `_validate_binary`: read int32 `length`, `assert len(data) >= length`,
`return data[length:]`. -/
def _validate_binary (data : Bytes) : Except PyErr Bytes :=
  match _get_int data with
  | .error e => .error e
  | .ok (length, d) =>
    if length ≤ (d.length : Int) then .ok (pySliceFrom d length)
    else .error .assertionError

/-- `_validate_undefined` (also `_validate_null`): consume nothing. -/
def _validate_undefined (data : Bytes) : Except PyErr Bytes := .ok data

/-- `_validate_oid`: `assert len(data) >= 12; return data[12:]`. -/
def _validate_oid (data : Bytes) : Except PyErr Bytes :=
  if 12 ≤ data.length then .ok (data.drop 12) else .error .assertionError

/-- `_validate_boolean`: `assert len(data) >= 1; return data[1:]`. -/
def _validate_boolean (data : Bytes) : Except PyErr Bytes :=
  if 1 ≤ data.length then .ok (data.drop 1) else .error .assertionError

/-- `_validate_date`: `assert len(data) >= 8; return data[8:]`. -/
def _validate_date (data : Bytes) : Except PyErr Bytes :=
  if 8 ≤ data.length then .ok (data.drop 8) else .error .assertionError

/-- `_validate_regex`: two C-strings. -/
def _validate_regex (data : Bytes) : Except PyErr Bytes :=
  match _get_c_string data with
  | .error e => .error e
  | .ok (_, d1) =>
    match _get_c_string d1 with
    | .error e => .error e
    | .ok (_, d2) => .ok d2

/-- `_validate_ref`: a C-string namespace then a 12-byte oid. -/
def _validate_ref (data : Bytes) : Except PyErr Bytes :=
  match _get_c_string data with
  | .error e => .error e
  | .ok (_, d1) => _validate_oid d1

/-- `_validate_number_int`: `assert len(data) >= 4; return data[4:]`. -/
def _validate_number_int (data : Bytes) : Except PyErr Bytes :=
  if 4 ≤ data.length then .ok (data.drop 4) else .error .assertionError

mutual

/-- `_validate_document(data, valid_name)`: read the declared size, check
framing and the trailing zero byte, then validate the elements of the body;
return the bytes after the declared size.  The `Bool` argument selects the
name pattern: `false` = `_valid_object_name`, `true` = `_valid_array_name`.
The `struct.error` of an undersized buffer is re-raised as `InvalidBSON`;
failed `assert`s raise `AssertionError`. -/
def _validate_document : Nat → Bool → Bytes → OR Bytes
  | 0, _, _ => none
  | fuel + 1, arrayMode, data =>
    match unpackInt32 data with
    | none => some (.error .invalidBSON)
    | some objSize =>
      if objSize ≤ (data.length : Int) then
        if (pySlice data 4 objSize).isEmpty then some (.error .assertionError)
        else
          match (pySlice data 4 objSize).getLast? with
          | none => some (.error .indexError)
          | some eoo =>
            if eoo = 0 then
              match _validate_elements fuel arrayMode (pySlice data 4 objSize).dropLast with
              | none => none
              | some (.error e) => some (.error e)
              | some (.ok _) => some (.ok (pySliceFrom data objSize))
            else some (.error .assertionError)
      else some (.error .assertionError)

/-- `_validate_elements`: `while data: data = _validate_element(data, ...)`. -/
def _validate_elements : Nat → Bool → Bytes → OR Unit
  | 0, _, _ => none
  | fuel + 1, arrayMode, data =>
    if data.isEmpty then some (.ok ())
    else
      match _validate_element fuel arrayMode data with
      | none => none
      | some (.error e) => some (.error e)
      | some (.ok d) => _validate_elements fuel arrayMode d

/-- `_validate_element`: tag byte, C-string name matched against the active
pattern, then the per-tag payload validator. -/
def _validate_element : Nat → Bool → Bytes → OR Bytes
  | 0, _, _ => none
  | fuel + 1, arrayMode, data =>
    match data with
    | [] => some (.error .indexError)
    | t :: rest =>
      match _get_c_string rest with
      | .error e => some (.error e)
      | .ok (name, d) =>
        if (if arrayMode then matchDigitName name else matchAnyName name) then
          _validate_element_data fuel t d
        else some (.error .assertionError)

/-- `_validate_element_data`: dispatch through `_element_validator`;
a missing tag is a `KeyError`, caught and re-raised as `InvalidBSON`. -/
def _validate_element_data : Nat → Nat → Bytes → OR Bytes
  | 0, _, _ => none
  | fuel + 1, t, data =>
    if t = 1 then some (_validate_number data)
    else if t = 2 then some (_validate_string data)
    else if t = 3 then _validate_document fuel false data
    else if t = 4 then _validate_document fuel true data
    else if t = 5 then some (_validate_binary data)
    else if t = 6 then some (_validate_undefined data)
    else if t = 7 then some (_validate_oid data)
    else if t = 8 then some (_validate_boolean data)
    else if t = 9 then some (_validate_date data)
    else if t = 10 then some (_validate_undefined data)
    else if t = 11 then some (_validate_regex data)
    else if t = 12 then some (_validate_ref data)
    else if t = 13 then some (_validate_string data)
    else if t = 14 then some (_validate_string data)
    else if t = 16 then some (_validate_number_int data)
    else some (.error .invalidBSON)

end

/-- `is_valid` on a byte string: validate as a document and require an empty
remainder; `AssertionError` and `InvalidBSON` yield `False`, any other
exception (e.g. `UnicodeDecodeError`, `IndexError`) propagates. -/
def is_valid (fuel : Nat) (data : Bytes) : OR Bool :=
  match _validate_document fuel false data with
  | none => none
  | some (.ok remainder) => some (.ok (remainder.isEmpty))
  | some (.error .assertionError) => some (.ok false)
  | some (.error .invalidBSON) => some (.ok false)
  | some (.error e) => some (.error e)

/-! ## Decoder -/

/-- `_get_number`: unpack eight bytes as a float (kept as its bit pattern);
`struct.error` here is uncaught. -/
def _get_number (data : Bytes) : Except PyErr (PyVal × Bytes) :=
  match unpackBits64 data with
  | none => .error .structError
  | some bits => .ok (.float bits, data.drop 8)

/-- `_get_string`: skip the four length bytes and read a C-string. -/
def _get_string (data : Bytes) : Except PyErr (PyVal × Bytes) :=
  match _get_c_string (data.drop 4) with
  | .error e => .error e
  | .ok (s, r) => .ok (.str s, r)

/-- `_get_boolean`: `data[0] == "\x01"` (an empty buffer raises
`IndexError`). -/
def _get_boolean (data : Bytes) : Except PyErr (PyVal × Bytes) :=
  match data with
  | [] => .error .indexError
  | b :: r => .ok (.bool (b == 1), r)

/-- The probe loop of `_get_array`: look up `str(i)` for `i = 0, 1, 2, ...`
until a `KeyError`.  The fuel is an artifact; `d.size + 1` probes always
suffice. -/
def buildArrayAux (d : PyFields) : Nat → Nat → Option (List PyVal)
  | 0, _ => none
  | fuel + 1, i =>
    match d.lookup? (natStr i) with
    | none => some []
    | some v =>
      match buildArrayAux d fuel (i + 1) with
      | none => none
      | some vs => some (v :: vs)

mutual

/-- `_document_to_dict`: read the declared size (`struct.error` uncaught
here), take `data[4:obj_size - 1]` as the element region, fold it into a
dict, and return it with `data[obj_size:]`. -/
def _document_to_dict : Nat → Bytes → OR (PyFields × Bytes)
  | 0, _ => none
  | fuel + 1, data =>
    match unpackInt32 data with
    | none => some (.error .structError)
    | some objSize =>
      match _elements_to_dict fuel (pySlice data 4 (objSize - 1)) PyFields.nil with
      | none => none
      | some (.error e) => some (.error e)
      | some (.ok d) => some (.ok (d, pySliceFrom data objSize))

/-- `_elements_to_dict`: `result = {}; while data: ...; result[key] = value`. -/
def _elements_to_dict : Nat → Bytes → PyFields → OR PyFields
  | 0, _, _ => none
  | fuel + 1, data, result =>
    if data.isEmpty then some (.ok result)
    else
      match _element_to_dict fuel data with
      | none => none
      | some (.error e) => some (.error e)
      | some (.ok (key, value, d)) => _elements_to_dict fuel d (dictInsert result key value)

/-- `_element_to_dict`: tag byte, C-string name, then the tag's getter. -/
def _element_to_dict : Nat → Bytes → OR (String × PyVal × Bytes)
  | 0, _ => none
  | fuel + 1, data =>
    match data with
    | [] => some (.error .indexError)
    | t :: rest =>
      match _get_c_string rest with
      | .error e => some (.error e)
      | .ok (name, d) =>
        match _element_getter fuel t d with
        | none => none
        | some (.error e) => some (.error e)
        | some (.ok (v, r)) => some (.ok (name, v, r))

/-- The `_element_getter` dispatch table: only tags 0x01, 0x02, 0x03, 0x04,
0x08 and 0x10 are present; any other tag raises an uncaught `KeyError`. -/
def _element_getter : Nat → Nat → Bytes → OR (PyVal × Bytes)
  | 0, _, _ => none
  | fuel + 1, t, data =>
    if t = 1 then some (_get_number data)
    else if t = 2 then some (_get_string data)
    else if t = 3 then
      match _document_to_dict fuel data with
      | none => none
      | some (.error e) => some (.error e)
      | some (.ok (d, r)) => some (.ok (.dict d, r))
    else if t = 4 then _get_array fuel data
    else if t = 8 then some (_get_boolean data)
    else if t = 16 then
      match _get_int data with
      | .error e => some (.error e)
      | .ok (n, r) => some (.ok (.int n, r))
    else some (.error .keyError)

/-- `_get_array`: decode as an embedded document, then re-project the dict
into a list by probing keys `"0"`, `"1"`, ... until the first miss. -/
def _get_array : Nat → Bytes → OR (PyVal × Bytes)
  | 0, _ => none
  | fuel + 1, data =>
    match _document_to_dict fuel data with
    | none => none
    | some (.error e) => some (.error e)
    | some (.ok (d, r)) =>
      match buildArrayAux d (d.size + 1) 0 with
      | none => none
      | some vs => some (.ok (.list (pyListOfList vs), r))

end

/-- `BSON.to_dict`: decode the held bytes, keeping only the mapping. -/
def to_dict (fuel : Nat) (data : Bytes) : OR PyFields :=
  match _document_to_dict fuel data with
  | none => none
  | some (.error e) => some (.error e)
  | some (.ok (d, _)) => some (.ok d)

/-! ## Encoder -/

/-- `_int_to_bson`: `struct.pack("<i", n)`; `struct.error` is uncaught. -/
def _int_to_bson (n : Int) : Except PyErr Bytes :=
  match packInt32 n with
  | none => .error .structError
  | some b => .ok b

/-- `dict(zip([str(i) for i in range(len(value))], value))`. -/
def fieldsOfPyListAux : Nat → PyList → PyFields
  | _, .nil => .nil
  | i, .cons v r => .cons (natStr i) v (fieldsOfPyListAux (i + 1) r)

def fieldsOfPyList (l : PyList) : PyFields := fieldsOfPyListAux 0 l

/- Size measure used only for termination of the encoder (it ignores keys,
which `fieldsOfPyList` manufactures). -/
mutual
def PyVal.wsize : PyVal → Nat
  | .dict d => d.wsize + 1
  | .list l => l.wsize + 1
  | _ => 1
def PyFields.wsize : PyFields → Nat
  | .nil => 0
  | .cons _ v r => v.wsize + r.wsize + 1
def PyList.wsize : PyList → Nat
  | .nil => 0
  | .cons v r => v.wsize + r.wsize + 1
end

/-- `fieldsOfPyList` preserves the termination measure (used by
`decreasing_by` below, hence a `def`-style proof term). -/
def wsize_fieldsOfPyListAux : (l : PyList) → (i : Nat) →
    (fieldsOfPyListAux i l).wsize = l.wsize
  | .nil, _ => rfl
  | .cons v r, i => by
    show (PyFields.cons (natStr i) v (fieldsOfPyListAux (i + 1) r)).wsize = _
    show v.wsize + (fieldsOfPyListAux (i + 1) r).wsize + 1 = v.wsize + r.wsize + 1
    rw [wsize_fieldsOfPyListAux r (i + 1)]

mutual

/-- `_value_to_bson`: select the wire type by the native kind and build the
payload.  Fuel is an artifact of the model, decremented on every call; it
also feeds the validation that nested `BSON.from_dict` calls perform. -/
def _value_to_bson : Nat → PyVal → OR (Nat × Bytes)
  | 0, _ => none
  | _ + 1, .float bits => some (.ok (1, packBits64 bits))
  | _ + 1, .str s =>
    match _int_to_bson ((_make_c_string s).length : Int) with
    | .error e => some (.error e)
    | .ok lenB => some (.ok (2, lenB ++ _make_c_string s))
  | fuel + 1, .dict d =>
    match from_dict fuel d with
    | none => none
    | some (.error e) => some (.error e)
    | some (.ok b) => some (.ok (3, b))
  | fuel + 1, .list l =>
    match from_dict fuel (fieldsOfPyList l) with
    | none => none
    | some (.error e) => some (.error e)
    | some (.ok b) => some (.ok (4, b))
  | _ + 1, .bool b => some (.ok (8, [if b then 1 else 0]))
  | _ + 1, .int n =>
    match _int_to_bson n with
    | .error e => some (.error e)
    | .ok nb => some (.ok (16, nb))

/-- `_element_to_bson`: tag byte, C-string name, payload. -/
def _element_to_bson : Nat → String → PyVal → OR Bytes
  | 0, _, _ => none
  | fuel + 1, key, value =>
    match _value_to_bson fuel value with
    | none => none
    | some (.error e) => some (.error e)
    | some (.ok (t, payload)) => some (.ok (t :: (_make_c_string key ++ payload)))

/-- The `"".join(...)` over `dict.iteritems()` inside `BSON.from_dict`. -/
def _elements_to_bson : Nat → PyFields → OR Bytes
  | 0, _ => none
  | _ + 1, .nil => some (.ok [])
  | fuel + 1, .cons k v r =>
    match _element_to_bson fuel k v with
    | none => none
    | some (.error e) => some (.error e)
    | some (.ok eb) =>
      match _elements_to_bson fuel r with
      | none => none
      | some (.error e) => some (.error e)
      | some (.ok rb) => some (.ok (eb ++ rb))

/-- `BSON.from_dict`: join the elements, prepend the packed length, append
the terminator, and validate the result (`BSON.__new__` raises
`InvalidBSON` when `is_valid` is falsy). -/
def from_dict : Nat → PyFields → OR Bytes
  | 0, _ => none
  | fuel + 1, d =>
    match _elements_to_bson fuel d with
    | none => none
    | some (.error e) => some (.error e)
    | some (.ok elements) =>
      match _int_to_bson ((elements.length : Int) + 5) with
      | .error e => some (.error e)
      | .ok lenB =>
        match is_valid fuel (lenB ++ elements ++ [0]) with
        | none => none
        | some (.ok true) => some (.ok (lenB ++ elements ++ [0]))
        | some (.ok false) => some (.error .invalidBSON)
        | some (.error e) => some (.error e)

end

/-! ## Raw byte builders

Value bytes as produced on the success path of the encoder, without
re-running the validator: a proof device for naming the bytes the encoder
emits.  `rawListElements` builds the element bytes of the array document
`dict(zip([str(i) ...], value))` directly, keeping the recursion
structural. -/

mutual

def rawValue : PyVal → Except PyErr (Nat × Bytes)
  | .float bits => .ok (1, packBits64 bits)
  | .str s =>
    match _int_to_bson ((_make_c_string s).length : Int) with
    | .error e => .error e
    | .ok lenB => .ok (2, lenB ++ _make_c_string s)
  | .dict d =>
    match rawElements d with
    | .error e => .error e
    | .ok elements =>
      match _int_to_bson ((elements.length : Int) + 5) with
      | .error e => .error e
      | .ok lenB => .ok (3, lenB ++ elements ++ [0])
  | .list l =>
    match rawListElements 0 l with
    | .error e => .error e
    | .ok elements =>
      match _int_to_bson ((elements.length : Int) + 5) with
      | .error e => .error e
      | .ok lenB => .ok (4, lenB ++ elements ++ [0])
  | .bool b => .ok (8, [if b then 1 else 0])
  | .int n =>
    match _int_to_bson n with
    | .error e => .error e
    | .ok nb => .ok (16, nb)

def rawElements : PyFields → Except PyErr Bytes
  | .nil => .ok []
  | .cons k v r =>
    match rawValue v with
    | .error e => .error e
    | .ok (t, payload) =>
      match rawElements r with
      | .error e => .error e
      | .ok rb => .ok ((t :: (_make_c_string k ++ payload)) ++ rb)

def rawListElements : Nat → PyList → Except PyErr Bytes
  | _, .nil => .ok []
  | i, .cons v r =>
    match rawValue v with
    | .error e => .error e
    | .ok (t, payload) =>
      match rawListElements (i + 1) r with
      | .error e => .error e
      | .ok rb => .ok ((t :: (_make_c_string (natStr i) ++ payload)) ++ rb)

end

/-- The document bytes built from a mapping (length prefix, elements,
terminator), as emitted by the encoder's success path. -/
def rawDoc (d : PyFields) : Except PyErr Bytes :=
  match rawElements d with
  | .error e => .error e
  | .ok elements =>
    match _int_to_bson ((elements.length : Int) + 5) with
    | .error e => .error e
    | .ok lenB => .ok (lenB ++ elements ++ [0])

/-! ## Well-formedness of native values for the round trip -/

/-- A key the object-name pattern accepts and the C-string encoding keeps
intact: no NUL and no newline characters. -/
def keyOk (k : String) : Bool :=
  k.data.all (fun c => c.toNat != 0 && c.toNat != 10)

def keysOkF : PyFields → Bool
  | .nil => true
  | .cons k _ r => keyOk k && keysOkF r

/-- A text whose UTF-8 encoding contains no zero byte, so the C-string
walk of the buffer stays in sync with it. -/
def noNul (s : String) : Bool := s.data.all (fun c => c.toNat != 0)

mutual
def wfValue : PyVal → Bool
  | .float bits => bits < 18446744073709551616
  | .str s => s.data.all (fun c => c.toNat != 0)
  | .dict d => keysOkF d && decide d.keyList.Nodup && wfFields d
  | .list l => wfList l
  | .bool _ => true
  | .int _ => true
def wfFields : PyFields → Bool
  | .nil => true
  | .cons _ v r => wfValue v && wfFields r
def wfList : PyList → Bool
  | .nil => true
  | .cons v r => wfValue v && wfList r
end


/-! ## Folds over fields (decoder reconstruction) -/

/-- Fold the pairs of `d` into `acc` by Python dict assignment, in order:
exactly what `_elements_to_dict` does with the decoded pairs. -/
def insertFields : PyFields → PyFields → PyFields
  | acc, .nil => acc
  | acc, .cons k v r => insertFields (dictInsert acc k v) r

/-- Concatenation of field lists. -/
def appendF : PyFields → PyFields → PyFields
  | .nil, e => e
  | .cons k v r, e => .cons k v (appendF r e)

/-! ## Specification devices

`elementsToPairs`/`documentToPairs` record the parse trace of the decoder
walk (the (name, value) pairs in buffer order); `insertAll`/`lastVal`
describe how Python dict assignment folds that trace. -/

/-- The element walk of the decoder, recording pairs instead of folding
them into a dict. -/
def elementsToPairs : Nat → Bytes → OR (List (String × PyVal))
  | 0, _ => none
  | fuel + 1, data =>
    if data.isEmpty then some (.ok [])
    else
      match _element_to_dict fuel data with
      | none => none
      | some (.error e) => some (.error e)
      | some (.ok (key, value, d)) =>
        match elementsToPairs fuel d with
        | none => none
        | some (.error e) => some (.error e)
        | some (.ok ps) => some (.ok ((key, value) :: ps))

/-- `_document_to_dict` with the element walk replaced by its trace. -/
def documentToPairs : Nat → Bytes → OR (List (String × PyVal) × Bytes)
  | 0, _ => none
  | fuel + 1, data =>
    match unpackInt32 data with
    | none => some (.error .structError)
    | some objSize =>
      match elementsToPairs fuel (pySlice data 4 (objSize - 1)) with
      | none => none
      | some (.error e) => some (.error e)
      | some (.ok ps) => some (.ok (ps, pySliceFrom data objSize))

/-- Fold a trace into a dict by repeated Python dict assignment. -/
def insertAll (acc : PyFields) (ps : List (String × PyVal)) : PyFields :=
  ps.foldl (fun d p => dictInsert d p.1 p.2) acc

/-- The value of the last pair with the given key, if any. -/
def lastVal (ps : List (String × PyVal)) (k : String) : Option PyVal :=
  ps.foldl (fun acc p => if p.1 = k then some p.2 else acc) none

/-- `lastVal` generalized over the fold seed. -/
def lastValFrom (init : Option PyVal) (ps : List (String × PyVal)) (k : String) :
    Option PyVal :=
  ps.foldl (fun acc p => if p.1 = k then some p.2 else acc) init


theorem utf8EncodeChar_length_pos (c : Char) : 0 < (utf8EncodeChar c).length := by
  unfold utf8EncodeChar
  split_ifs <;> simp

theorem isEmpty_false_of_length_pos {α : Type} (l : List α) (h : 0 < l.length) :
    l.isEmpty = false := by
  cases l
  · simp at h
  · rfl

theorem utf8DecodeChar_encodeChar (c : Char) (r : List Nat) :
    utf8DecodeChar (utf8EncodeChar c ++ r) = some (c.toNat, r) := by
  have hv : Nat.isValidChar c.toNat := c.valid
  unfold Nat.isValidChar at hv
  by_cases h1 : c.toNat < 128
  · rw [utf8EncodeChar, if_pos h1]
    show utf8DecodeChar (c.toNat :: r) = _
    rw [utf8DecodeChar, if_pos h1]
  · by_cases h2 : c.toNat < 2048
    · rw [utf8EncodeChar, if_neg h1, if_pos h2]
      show utf8DecodeChar ((192 + c.toNat / 64) :: (128 + c.toNat % 64) :: r) = _
      rw [utf8DecodeChar, if_neg (by omega), if_neg (by omega), if_pos (by omega),
        utf8Dec2, if_pos (by omega)]
      simp only [Option.some.injEq, Prod.mk.injEq]
      exact ⟨by omega, trivial⟩
    · by_cases h3 : c.toNat < 65536
      · rw [utf8EncodeChar, if_neg h1, if_neg h2, if_pos h3]
        show utf8DecodeChar
          ((224 + c.toNat / 4096) :: (128 + c.toNat / 64 % 64) :: (128 + c.toNat % 64) :: r) = _
        rw [utf8DecodeChar, if_neg (by omega), if_neg (by omega), if_neg (by omega),
          if_pos (by omega), utf8Dec3, if_pos (by omega), if_neg (by omega)]
        simp only [Option.some.injEq, Prod.mk.injEq]
        exact ⟨by omega, trivial⟩
      · rw [utf8EncodeChar, if_neg h1, if_neg h2, if_neg h3]
        show utf8DecodeChar ((240 + c.toNat / 262144) :: (128 + c.toNat / 4096 % 64) ::
          (128 + c.toNat / 64 % 64) :: (128 + c.toNat % 64) :: r) = _
        rw [utf8DecodeChar, if_neg (by omega), if_neg (by omega), if_neg (by omega),
          if_neg (by omega), if_pos (by omega), utf8Dec4, if_pos (by omega),
          if_neg (by omega)]
        simp only [Option.some.injEq, Prod.mk.injEq]
        exact ⟨by omega, trivial⟩

theorem utf8DecodeAux_encodeList (cs : List Char) :
    ∀ fuel, (utf8EncodeList cs).length ≤ fuel →
      utf8DecodeAux fuel (utf8EncodeList cs) = some cs := by
  induction cs with
  | nil => intro fuel _; cases fuel <;> rfl
  | cons c cs ih =>
    intro fuel hf
    have hpos : 0 < (utf8EncodeList (c :: cs)).length := by
      show 0 < (utf8EncodeChar c ++ utf8EncodeList cs).length
      have := utf8EncodeChar_length_pos c
      simp; omega
    cases fuel with
    | zero => omega
    | succ fuel =>
      rw [utf8DecodeAux, if_neg (by rw [isEmpty_false_of_length_pos _ hpos]; simp)]
      show (match utf8DecodeChar (utf8EncodeChar c ++ utf8EncodeList cs) with
        | none => none
        | some (u, rest) =>
          match utf8DecodeAux fuel rest with
          | none => none
          | some cs => some (Char.ofNat u :: cs)) = _
      rw [utf8DecodeChar_encodeChar c (utf8EncodeList cs)]
      show (match utf8DecodeAux fuel (utf8EncodeList cs) with
        | none => none
        | some cs => some (Char.ofNat c.toNat :: cs)) = _
      have hlen : (utf8EncodeList cs).length ≤ fuel := by
        have := utf8EncodeChar_length_pos c
        have : (utf8EncodeList (c :: cs)).length =
            (utf8EncodeChar c).length + (utf8EncodeList cs).length := by
          show (utf8EncodeChar c ++ utf8EncodeList cs).length = _
          simp
        omega
      rw [ih fuel hlen, Char.ofNat_toNat]

theorem utf8Decode_encode (s : String) : utf8Decode (utf8Encode s) = some s := by
  unfold utf8Decode utf8Encode
  rw [utf8DecodeAux_encodeList s.data _ (Nat.le_refl _)]
  cases s; rfl

theorem utf8EncodeChar_not_nul (c : Char) (hc : c.toNat ≠ 0) :
    ∀ b ∈ utf8EncodeChar c, b ≠ 0 := by
  intro b hb
  unfold utf8EncodeChar at hb
  split at hb
  · simp at hb; omega
  · split at hb
    · simp at hb; rcases hb with h | h <;> omega
    · split at hb
      · simp at hb; rcases hb with h | h | h <;> omega
      · simp at hb; rcases hb with h | h | h | h <;> omega

theorem utf8EncodeList_not_nul (cs : List Char) (h : ∀ c ∈ cs, c.toNat ≠ 0) :
    ∀ b ∈ utf8EncodeList cs, b ≠ 0 := by
  induction cs with
  | nil => intro b hb; simp [utf8EncodeList] at hb
  | cons c cs ih =>
    intro b hb
    unfold utf8EncodeList at hb
    rw [List.mem_append] at hb
    rcases hb with hb | hb
    · exact utf8EncodeChar_not_nul c (h c (List.mem_cons_self c cs)) b hb
    · exact ih (fun c' hc' => h c' (List.mem_cons_of_mem c hc')) b hb

theorem digitChar_toNat (d : Nat) (hd : d < 10) : (digitChar d).toNat = 48 + d := by
  interval_cases d <;> decide

theorem decValAux_append_digit (cs : List Char) (c : Char) :
    decValAux (cs ++ [c]) = 10 * decValAux cs + (c.toNat - 48) := by
  unfold decValAux
  rw [List.foldl_append]
  rfl

theorem decValAux_natDigitsAux : ∀ fuel n, n < fuel → decValAux (natDigitsAux fuel n) = n := by
  intro fuel
  induction fuel with
  | zero => intro n h; omega
  | succ fuel ih =>
    intro n h
    unfold natDigitsAux
    by_cases hn : n < 10
    · simp only [hn, if_true]
      unfold decValAux
      simp [digitChar_toNat n hn]
    · simp only [hn, if_false]
      rw [decValAux_append_digit, ih (n / 10) (by omega), digitChar_toNat (n % 10) (by omega)]
      omega

theorem natStr_injective : Function.Injective natStr := by
  intro m n h
  unfold natStr at h
  have h' : natDigitsAux (m + 1) m = natDigitsAux (n + 1) n := by
    injection h
  have hm := decValAux_natDigitsAux (m + 1) m (by omega)
  have hn := decValAux_natDigitsAux (n + 1) n (by omega)
  rw [← hm, ← hn, h']

theorem digitChar_isDigit (d : Nat) (hd : d < 10) : (digitChar d).isDigit := by
  interval_cases d <;> decide

theorem natDigitsAux_digits : ∀ fuel n, n < fuel →
    ∀ c ∈ natDigitsAux fuel n, c.isDigit := by
  intro fuel
  induction fuel with
  | zero => intro n h; omega
  | succ fuel ih =>
    intro n h c hc
    unfold natDigitsAux at hc
    by_cases hn : n < 10
    · simp only [hn, if_true] at hc
      simp at hc
      subst hc
      exact digitChar_isDigit n hn
    · simp only [hn, if_false] at hc
      rw [List.mem_append] at hc
      rcases hc with hc | hc
      · exact ih (n / 10) (by omega) c hc
      · simp at hc
        subst hc
        exact digitChar_isDigit (n % 10) (by omega)

theorem natDigitsAux_ne_nil (n : Nat) : natDigitsAux (n + 1) n ≠ [] := by
  unfold natDigitsAux
  by_cases hn : n < 10
  · simp [hn]
  · simp [hn]

theorem natStr_digits : ∀ c ∈ (natStr n).data, c.isDigit := by
  intro c hc
  exact natDigitsAux_digits (n + 1) n (by omega) c hc

/-! ## Round-trip statements

The three statements proved by one strong induction on `wsize`: what the
encoder emits for a well-formed value is accepted by the validator and
decodes back to the same value. -/

/-- Value-level round trip: on a well-formed value the fueled encoder
agrees with the raw builder, the emitted payload validates, and the getter
decodes it back. -/
def SV (v : PyVal) : Prop :=
  wfValue v = true → ∀ tag pl, rawValue v = .ok (tag, pl) →
    (∀ f, 3 * pl.length + 2 ≤ f → _value_to_bson f v = some (.ok (tag, pl))) ∧
    (∀ f rest, 3 * pl.length + 2 ≤ f →
      _validate_element_data f tag (pl ++ rest) = some (.ok rest)) ∧
    (∀ f rest, 3 * pl.length + 2 ≤ f →
      _element_getter f tag (pl ++ rest) = some (.ok (v, rest)))

/-- Elements-level round trip over an element region. -/
def SE (d : PyFields) : Prop :=
  wfFields d = true → ∀ eb, rawElements d = .ok eb →
    (∀ mode, (∀ k ∈ d.keyList,
        noNul k = true ∧ (if mode then matchDigitName k else matchAnyName k) = true) →
      ∀ f, 3 * eb.length + 1 ≤ f → _validate_elements f mode eb = some (.ok ())) ∧
    (∀ f, 3 * eb.length + 1 ≤ f → _elements_to_bson f d = some (.ok eb)) ∧
    ((∀ k ∈ d.keyList, noNul k = true) → ∀ f acc, 3 * eb.length + 1 ≤ f →
      _elements_to_dict f eb acc = some (.ok (insertFields acc d)))

/-- Document-level round trip. -/
def SD (d : PyFields) : Prop :=
  wfFields d = true → ∀ db, rawDoc d = .ok db →
    (∀ mode, (∀ k ∈ d.keyList,
        noNul k = true ∧ (if mode then matchDigitName k else matchAnyName k) = true) →
      ∀ f rest, 3 * db.length ≤ f →
        _validate_document f mode (db ++ rest) = some (.ok rest)) ∧
    ((∀ k ∈ d.keyList, keyOk k = true) →
      ∀ f, 3 * db.length + 1 ≤ f → from_dict f d = some (.ok db)) ∧
    (d.keyList.Nodup → (∀ k ∈ d.keyList, noNul k = true) →
      ∀ f rest, 3 * db.length ≤ f →
        _document_to_dict f (db ++ rest) = some (.ok (d, rest)))

/-! ## Round-trip facts about the byte primitives -/

theorem packInt32_some (n : Int) (lo : -2147483648 ≤ n) (hi : n < 2147483648) :
    packInt32 n = some [(n % 4294967296).toNat % 256, (n % 4294967296).toNat / 256 % 256,
      (n % 4294967296).toNat / 65536 % 256, (n % 4294967296).toNat / 16777216 % 256] := by
  unfold packInt32
  rw [if_pos (show n.toNat < 2147483648 ∧ (-n).toNat ≤ 2147483648 by omega)]

theorem packInt32_length (n : Int) (nb : Bytes) (h : packInt32 n = some nb) :
    nb.length = 4 := by
  unfold packInt32 at h
  split at h
  · rw [Option.some.injEq] at h
    subst h
    rfl
  · exact absurd h (by simp)

theorem unpackInt32_pack (n : Int) (nb : Bytes) (h : packInt32 n = some nb) (rest : Bytes) :
    unpackInt32 (nb ++ rest) = some n := by
  unfold packInt32 at h
  split at h
  case isTrue hr =>
    rw [Option.some.injEq] at h
    subst h
    show unpackInt32 (_ :: _ :: _ :: _ :: rest) = some n
    unfold unpackInt32
    rw [Option.some.injEq]
    have h0 : 0 ≤ n % 4294967296 := Int.emod_nonneg n (by norm_num)
    have h1 : n % 4294967296 < 4294967296 := Int.emod_lt_of_pos n (by norm_num)
    have hmod : n % 4294967296 = n ∨ n % 4294967296 = n + 4294967296 := by omega
    split <;> omega
  case isFalse => exact absurd h (by simp)

theorem unpackBits64_pack (u : Nat) (hu : u < 18446744073709551616) (rest : Bytes) :
    unpackBits64 (packBits64 u ++ rest) = some u := by
  show unpackBits64 (_ :: _ :: _ :: _ :: _ :: _ :: _ :: _ :: rest) = some u
  unfold unpackBits64
  rw [Option.some.injEq]
  omega

theorem packBits64_length (u : Nat) : (packBits64 u).length = 8 := rfl

theorem unpackInt32_append (b g : Bytes) (h : 4 ≤ b.length) :
    unpackInt32 (b ++ g) = unpackInt32 b := by
  match b with
  | b0 :: b1 :: b2 :: b3 :: rest => rfl
  | [] => simp at h
  | [_] => simp at h
  | [_, _] => simp at h
  | [_, _, _] => simp at h

/-! ## Claim C4: the minimal document -/

/-- C4: the five bytes `05 00 00 00 00` satisfy `is_valid`, decode via
`to_dict` to the empty mapping, and encoding the empty mapping via
`BSON.from_dict` produces exactly these five bytes. -/
theorem minimal_document_facts :
    is_valid 5 [5, 0, 0, 0, 0] = some (.ok true) ∧
    to_dict 5 [5, 0, 0, 0, 0] = some (.ok PyFields.nil) ∧
    from_dict 5 PyFields.nil = some (.ok [5, 0, 0, 0, 0]) :=
  ⟨rfl, rfl, rfl⟩

/-! ## Claim C2: `is_valid` can raise on byte input

`is_valid` catches only `AssertionError` and `InvalidBSON`; the
`UnicodeDecodeError` raised by `_get_c_string` on an element name that is
not valid UTF-8 propagates to the caller.  The buffer below is a complete
document whose single Boolean element is named with the lone byte `0xFF`. -/

/-- C2: `is_valid` raises `UnicodeDecodeError` (uncaught) on the byte
input `09 00 00 00 08 FF 00 01 00`, contradicting its own docstring
("Returns True if the data represents a valid BSON object, False
otherwise"). -/
theorem is_valid_raises_on_bad_utf8_name :
    is_valid 5 [9, 0, 0, 0, 8, 255, 0, 1, 0] = some (.error .unicodeDecodeError) := rfl

/-! ## Claim C8: the Boolean payload byte is not checked -/

/-- C8 counterexample: the document `09 00 00 00 08 61 00 02 00`, whose
Boolean element carries the payload byte `0x02`, is accepted by the
validator, and `_validate_boolean` accepts the single byte `0x02`. -/
theorem boolean_payload_not_checked :
    is_valid 5 [9, 0, 0, 0, 8, 97, 0, 2, 0] = some (.ok true) ∧
    _validate_boolean [2] = .ok [] :=
  ⟨rfl, rfl⟩

/-- C8 amended: the Boolean payload validator accepts **any** payload byte
(not just `0x00`/`0x01`), consuming exactly one byte; the decoder maps any
byte other than `0x01` to `False`. -/
theorem validate_boolean_any_byte (b : Nat) (rest : Bytes) :
    _validate_boolean (b :: rest) = .ok rest ∧
    _get_boolean (b :: rest) = .ok (.bool (b == 1), rest) := by
  refine ⟨?_, rfl⟩
  unfold _validate_boolean
  rw [if_pos (by simp)]
  rfl

/-! ## Claim C9: the String payload validator -/

/-- C9 counterexample: `_validate_string` accepts a payload whose declared
`byteLen` is zero (`00 00 00 00` followed by a byte region whose last byte
is zero), consuming only the four length bytes; a complete document with a
zero-`byteLen` String element passes `is_valid`. -/
theorem validate_string_accepts_zero_byteLen :
    _validate_string [0, 0, 0, 0, 0] = .ok [0] ∧
    is_valid 5 [15, 0, 0, 0, 2, 97, 0, 0, 0, 0, 0, 8, 0, 0, 0] = some (.ok true) :=
  ⟨rfl, rfl⟩

/-- C9 amended: for a declared `byteLen ≥ 1` the String payload validator
accepts exactly when `byteLen` bytes remain and the `byteLen`-th byte is
zero, consuming `4 + byteLen` bytes (it returns `rest[byteLen:]`);
otherwise it raises `AssertionError`.  (`byteLen = 0` is also accepted
whenever the last remaining byte is zero, and negative values are possible,
so `byteLen ≥ 1` is not enforced — see the counterexample.) -/
theorem validate_string_spec (data d : Bytes) (L : Int)
    (hget : _get_int data = .ok (L, d)) (hL : 1 ≤ L) :
    (L ≤ (d.length : Int) ∧ d.get? (L.toNat - 1) = some 0 →
      _validate_string data = .ok (d.drop L.toNat)) ∧
    (¬(L ≤ (d.length : Int) ∧ d.get? (L.toNat - 1) = some 0) →
      _validate_string data = .error .assertionError) := by
  have heq : _validate_string data =
      (if L ≤ (d.length : Int) then
        match pyIndexGet d (L - 1) with
        | .error e => .error e
        | .ok b => if b = 0 then .ok (pySliceFrom d L) else .error PyErr.assertionError
      else .error PyErr.assertionError) := by
    unfold _validate_string
    rw [hget]
  rw [heq]
  constructor
  · rintro ⟨hlen, hbyte⟩
    rw [if_pos hlen]
    have hidx : pyIndexGet d (L - 1) = .ok 0 := by
      unfold pyIndexGet
      rw [if_neg (by omega : ¬(L - 1 < 0)), if_neg (by omega : ¬(L - 1 < 0))]
      rw [show (L - 1).toNat = L.toNat - 1 from by omega, hbyte]
    rw [hidx]
    show (if (0 : Nat) = 0 then Except.ok (pySliceFrom d L)
      else Except.error PyErr.assertionError) = _
    rw [if_pos rfl]
    unfold pySliceFrom pyBound
    rw [if_neg (by omega : ¬(L < 0))]
  · intro hno
    by_cases hlen : L ≤ (d.length : Int)
    · rw [if_pos hlen]
      have hbyte : ¬(d.get? (L.toNat - 1) = some 0) := fun hb => hno ⟨hlen, hb⟩
      have hv : d.get? (L.toNat - 1) = some (d.get ⟨L.toNat - 1, by omega⟩) :=
        List.get?_eq_get (by omega)
      have hvne : d.get ⟨L.toNat - 1, by omega⟩ ≠ 0 := by
        intro h0
        exact hbyte (by rw [hv, h0])
      have hidx : pyIndexGet d (L - 1) = .ok (d.get ⟨L.toNat - 1, by omega⟩) := by
        unfold pyIndexGet
        rw [if_neg (by omega : ¬(L - 1 < 0)), if_neg (by omega : ¬(L - 1 < 0))]
        rw [show (L - 1).toNat = L.toNat - 1 from by omega, hv]
      rw [hidx]
      show (if d.get ⟨L.toNat - 1, by omega⟩ = 0 then Except.ok (pySliceFrom d L)
        else Except.error PyErr.assertionError) = _
      rw [if_neg hvne]
    · rw [if_neg hlen]

/-- Witness for C9 amended: the concrete String payload
`02 00 00 00 41 00 63` (byteLen 2, bytes `41 00`, one stray byte after). -/
theorem validate_string_spec_witness :
    _get_int [2, 0, 0, 0, 65, 0, 99] = .ok (2, [65, 0, 99]) ∧ (1 : Int) ≤ 2 ∧
    _validate_string [2, 0, 0, 0, 65, 0, 99] = .ok [99] := by
  refine ⟨rfl, by norm_num, ?_⟩
  have h := (validate_string_spec [2, 0, 0, 0, 65, 0, 99] [65, 0, 99] 2 rfl
    (by norm_num)).1
  exact h ⟨by norm_num, rfl⟩

/-! ## Claim C3: decoding structurally-recognized-only tags

The buffer below validates: its first element is a String
(`byteLen = 2`, payload bytes `FF 00`), its second a Binary (tag 0x05,
empty blob).  Decoding does **not** fail with the getter-table `KeyError`:
it fails earlier, decoding the invalid UTF-8 String payload `FF`. -/

/-- C3 counterexample: a validator-accepted buffer containing a Binary
(0x05) element (at byte offset 13) whose decode fails with
`UnicodeDecodeError`, not with the getter `KeyError` (the spec's
`UnsupportedType`). -/
theorem decode_unsupported_tag_not_always_keyError :
    is_valid 7 [21, 0, 0, 0, 2, 97, 0, 2, 0, 0, 0, 255, 0, 5, 98, 0, 0, 0, 0, 0, 0] =
      some (.ok true) ∧
    ([21, 0, 0, 0, 2, 97, 0, 2, 0, 0, 0, 255, 0, 5, 98, 0, 0, 0, 0, 0, 0] : Bytes).get? 13 =
      some 5 ∧
    to_dict 7 [21, 0, 0, 0, 2, 97, 0, 2, 0, 0, 0, 255, 0, 5, 98, 0, 0, 0, 0, 0, 0] =
      some (.error .unicodeDecodeError) :=
  ⟨rfl, rfl, rfl⟩

/-- C3 amended: when the decoder reaches (in sync) an element whose tag is
in the structurally-recognized-only set and whose name parses, decoding
that element fails with the uncaught `KeyError` of the getter table (the
spec's `UnsupportedType`); an earlier element can instead make decoding
fail with a different error, or desynchronize the walk. -/
theorem decode_unsupported_tag_keyError (fuel : Nat) (t : Nat) (rest d : Bytes)
    (name : String) (ht : t ∈ ([5, 6, 7, 9, 10, 11, 12, 13, 14] : List Nat))
    (hname : _get_c_string rest = .ok (name, d)) :
    _element_to_dict (fuel + 2) (t :: rest) = some (.error .keyError) := by
  simp only [_element_to_dict]
  simp only [hname]
  have hget : _element_getter (fuel + 1) t d = some (.error .keyError) := by
    fin_cases ht <;> rfl
  simp only [hget]

/-- Witness for C3 amended: tag 0x05 with name `"b"` and an empty payload. -/
theorem decode_unsupported_tag_keyError_witness :
    (5 ∈ ([5, 6, 7, 9, 10, 11, 12, 13, 14] : List Nat)) ∧
    _get_c_string [98, 0] = .ok ("b", []) ∧
    _element_to_dict 2 [5, 98, 0] = some (.error .keyError) :=
  ⟨by decide, rfl, decode_unsupported_tag_keyError 0 5 [98, 0] [] "b" (by decide) rfl⟩

/-! ## Framing facts about the validator (claims C10 and C5) -/

theorem unpackInt32_some_length (data : Bytes) (L : Int) (h : unpackInt32 data = some L) :
    4 ≤ data.length := by
  match data with
  | _ :: _ :: _ :: _ :: _ => simp
  | [] => exact absurd h (by simp [unpackInt32])
  | [_] => exact absurd h (by simp [unpackInt32])
  | [_, _] => exact absurd h (by simp [unpackInt32])
  | [_, _, _] => exact absurd h (by simp [unpackInt32])

/-- Decomposition of a successful `_validate_document` run. -/
theorem validate_document_ok {fuel : Nat} {mode : Bool} {data rem : Bytes}
    (h : _validate_document fuel mode data = some (.ok rem)) :
    ∃ f L, fuel = f + 1 ∧ unpackInt32 data = some L ∧ L ≤ (data.length : Int) ∧
      (pySlice data 4 L).isEmpty = false ∧ (pySlice data 4 L).getLast? = some 0 ∧
      _validate_elements f mode (pySlice data 4 L).dropLast = some (.ok ()) ∧
      rem = pySliceFrom data L := by
  cases fuel with
  | zero => exact absurd h (by simp [_validate_document])
  | succ f =>
    simp only [_validate_document] at h
    cases hu : unpackInt32 data with
    | none => simp only [hu] at h; simp at h
    | some L =>
      simp only [hu] at h
      by_cases hle : L ≤ (data.length : Int)
      · rw [if_pos hle] at h
        by_cases hemp : (pySlice data 4 L).isEmpty
        · rw [if_pos hemp] at h
          simp at h
        · rw [if_neg hemp] at h
          cases hlast : (pySlice data 4 L).getLast? with
          | none => simp only [hlast] at h; simp at h
          | some eoo =>
            simp only [hlast] at h
            by_cases heoo : eoo = 0
            · subst heoo
              rw [if_pos rfl] at h
              cases hel : _validate_elements f mode (pySlice data 4 L).dropLast with
              | none => simp only [hel] at h; simp at h
              | some res =>
                cases res with
                | error e => simp only [hel] at h; simp at h
                | ok u =>
                  simp only [hel] at h
                  simp at h
                  exact ⟨f, L, rfl, rfl, hle, by simp [hemp], hlast, by cases u; exact hel,
                    h.symm⟩
            · rw [if_neg heoo] at h
              simp at h
      · rw [if_neg hle] at h
        simp at h

/-- A successful `is_valid` run decomposed into its framing facts. -/
theorem is_valid_true_framing {fuel : Nat} {data : Bytes}
    (h : is_valid fuel data = some (.ok true)) :
    unpackInt32 data = some (data.length : Int) ∧ 5 ≤ data.length ∧
    ∃ f, fuel = f + 1 ∧
      (pySlice data 4 (data.length : Int)).isEmpty = false ∧
      (pySlice data 4 (data.length : Int)).getLast? = some 0 ∧
      _validate_elements f false (pySlice data 4 (data.length : Int)).dropLast =
        some (.ok ()) := by
  unfold is_valid at h
  cases hvd : _validate_document fuel false data with
  | none => simp only [hvd] at h; simp at h
  | some res =>
    cases res with
    | error e =>
      exfalso
      simp only [hvd] at h
      cases e <;> simp at h
    | ok rem =>
      simp only [hvd] at h
      simp at h
      have hrem : rem = [] := by
        cases rem
        · rfl
        · simp [List.isEmpty] at h
      subst hrem
      obtain ⟨f, L, hf, hu, hle, hne, hlast, hel, hremeq⟩ := validate_document_ok hvd
      have hlen4 : 4 ≤ data.length := unpackInt32_some_length data L hu
      have hdrop : data.drop (pyBound data.length L) = [] := hremeq.symm
      have hLpos : 0 ≤ L := by
        by_contra hneg
        push_neg at hneg
        unfold pyBound at hdrop
        rw [if_pos hneg] at hdrop
        rw [List.drop_eq_nil_iff_le] at hdrop
        omega
      have hLlen : L = (data.length : Int) := by
        unfold pyBound at hdrop
        rw [if_neg (by omega : ¬(L < 0))] at hdrop
        rw [List.drop_eq_nil_iff_le] at hdrop
        omega
      subst hLlen
      have hslice : (pySlice data 4 (data.length : Int)).length = data.length - 4 := by
        unfold pySlice pyBound
        rw [if_neg (by omega : ¬((data.length : Int) < 0)),
          if_neg (by omega : ¬((4 : Int) < 0))]
        simp
      rcases Nat.lt_or_ge data.length 5 with hlt | hge
      · exfalso
        have h0 : (pySlice data 4 (data.length : Int)).length = 0 := by omega
        have hnil : pySlice data 4 (data.length : Int) = [] := List.length_eq_zero.mp h0
        rw [hnil] at hne
        simp at hne
      · exact ⟨hu, hge, f, hf, hne, hlast, hel⟩

/-- C10: if `is_valid` accepts a buffer then the little-endian signed int32
in its first four bytes equals the buffer's total length, and that length
is at least five. -/
theorem is_valid_length_exact (fuel : Nat) (data : Bytes)
    (h : is_valid fuel data = some (.ok true)) :
    unpackInt32 data = some (data.length : Int) ∧ 5 ≤ data.length := by
  obtain ⟨h1, h2, _⟩ := is_valid_true_framing h
  exact ⟨h1, h2⟩

/-- Witness for C10 at the minimal document. -/
theorem is_valid_length_exact_witness :
    is_valid 5 [5, 0, 0, 0, 0] = some (.ok true) ∧
    unpackInt32 [5, 0, 0, 0, 0] = some (([5, 0, 0, 0, 0] : Bytes).length : Int) ∧
    5 ≤ ([5, 0, 0, 0, 0] : Bytes).length :=
  ⟨rfl, is_valid_length_exact 5 [5, 0, 0, 0, 0] rfl⟩

/-- The body slice of a buffer is unchanged by appending bytes after its
declared end. -/
theorem pySlice_append_bound (b g : Bytes) :
    pySlice (b ++ g) 4 (b.length : Int) = pySlice b 4 (b.length : Int) := by
  unfold pySlice
  have e1 : pyBound (b ++ g).length (b.length : Int) = b.length := by
    unfold pyBound
    rw [if_neg (by omega : ¬((b.length : Int) < 0))]
    omega
  have e2 : pyBound (b ++ g).length 4 = 4 := by
    unfold pyBound
    rw [if_neg (by omega : ¬((4 : Int) < 0))]
    rfl
  have e3 : pyBound b.length (b.length : Int) = b.length := by
    unfold pyBound
    rw [if_neg (by omega : ¬((b.length : Int) < 0))]
    omega
  have e4 : pyBound b.length 4 = 4 := by
    unfold pyBound
    rw [if_neg (by omega : ¬((4 : Int) < 0))]
    rfl
  rw [e1, e2, e3, e4, List.take_left, List.take_length]

/-- C5: appending any non-empty suffix to a buffer that `is_valid` accepts
makes `is_valid` return `False` (the declared length now leaves a non-empty
remainder). -/
theorem is_valid_trailing_garbage (fuel : Nat) (b g : Bytes) (hg : g ≠ [])
    (hb : is_valid fuel b = some (.ok true)) :
    is_valid fuel (b ++ g) = some (.ok false) := by
  obtain ⟨hu, hlen, f, hf, hne, hlast, hel⟩ := is_valid_true_framing hb
  subst hf
  have hu' : unpackInt32 (b ++ g) = some (b.length : Int) := by
    rw [unpackInt32_append b g (by omega), hu]
  have hvd : _validate_document (f + 1) false (b ++ g) = some (.ok g) := by
    have hdrop : pySliceFrom (b ++ g) (b.length : Int) = g := by
      unfold pySliceFrom
      have e1 : pyBound (b ++ g).length (b.length : Int) = b.length := by
        unfold pyBound
        rw [if_neg (by omega : ¬((b.length : Int) < 0))]
        omega
      rw [e1, List.drop_left]
    simp only [_validate_document, hu']
    rw [if_pos (by
      rw [List.length_append]
      exact_mod_cast Nat.le_add_right b.length g.length)]
    rw [pySlice_append_bound b g]
    simp only [hne]
    rw [if_neg (by simp : ¬(false = true))]
    simp only [hlast]
    rw [if_pos trivial]
    simp only [hel]
    rw [hdrop]
  unfold is_valid
  simp only [hvd]
  rw [isEmpty_false_of_length_pos g (List.length_pos.mpr hg)]

/-- Witness for C5: the minimal document with one trailing zero byte. -/
theorem is_valid_trailing_garbage_witness :
    ([0] : Bytes) ≠ [] ∧ is_valid 5 [5, 0, 0, 0, 0] = some (.ok true) ∧
    is_valid 5 ([5, 0, 0, 0, 0] ++ [0]) = some (.ok false) :=
  ⟨by simp, rfl, is_valid_trailing_garbage 5 [5, 0, 0, 0, 0] [0] (by simp) rfl⟩

/-! ## Python dict assignment (claim C7) -/

theorem lookup_dictInsert_self : (d : PyFields) → (k : String) → (v : PyVal) →
    (dictInsert d k v).lookup? k = some v
  | .nil, k, v => by
    unfold dictInsert PyFields.lookup?
    rw [if_pos rfl]
  | .cons k' v' r, k, v => by
    unfold dictInsert
    by_cases h : k' = k
    · rw [if_pos h]
      unfold PyFields.lookup?
      rw [if_pos h]
    · rw [if_neg h]
      unfold PyFields.lookup?
      rw [if_neg h]
      exact lookup_dictInsert_self r k v

theorem lookup_dictInsert_other : (d : PyFields) → (k k2 : String) → (v : PyVal) →
    k ≠ k2 → (dictInsert d k v).lookup? k2 = d.lookup? k2
  | .nil, k, k2, v, hne => by
    unfold dictInsert PyFields.lookup?
    rw [if_neg hne]
    rfl
  | .cons k' v' r, k, k2, v, hne => by
    unfold dictInsert
    by_cases h : k' = k
    · rw [if_pos h]
      unfold PyFields.lookup?
      by_cases h2 : k' = k2
      · exact absurd (h.symm.trans h2) hne
      · rw [if_neg h2, if_neg h2]
    · rw [if_neg h]
      unfold PyFields.lookup?
      by_cases h2 : k' = k2
      · rw [if_pos h2, if_pos h2]
      · rw [if_neg h2, if_neg h2]
        exact lookup_dictInsert_other r k k2 v hne

/-- The decoder's dict fold equals its trace folded by `insertAll`. -/
theorem elements_to_dict_eq_pairs : ∀ (fuel : Nat) (data : Bytes) (acc : PyFields),
    _elements_to_dict fuel data acc =
      (elementsToPairs fuel data).map (fun r => r.map (insertAll acc)) := by
  intro fuel
  induction fuel with
  | zero => intro data acc; rfl
  | succ fuel ih =>
    intro data acc
    simp only [_elements_to_dict, elementsToPairs]
    by_cases hemp : data.isEmpty
    · rw [if_pos hemp, if_pos hemp]
      rfl
    · rw [if_neg hemp, if_neg hemp]
      cases hed : _element_to_dict fuel data with
      | none => rfl
      | some res =>
        cases res with
        | error e => rfl
        | ok kvd =>
          obtain ⟨key, value, d⟩ := kvd
          show _elements_to_dict fuel d (dictInsert acc key value) =
            Option.map (fun r => Except.map (insertAll acc) r)
              (match elementsToPairs fuel d with
              | none => none
              | some (Except.error e) => some (Except.error e)
              | some (Except.ok ps) => some (Except.ok ((key, value) :: ps)))
          rw [ih d (dictInsert acc key value)]
          cases hps : elementsToPairs fuel d with
          | none => rfl
          | some res2 =>
            cases res2 with
            | error e => rfl
            | ok ps => rfl

theorem lastValFrom_or : ∀ (ps : List (String × PyVal)) (init : Option PyVal) (k : String),
    lastValFrom init ps k = (lastVal ps k).or init := by
  intro ps
  induction ps with
  | nil => intro init k; cases init <;> rfl
  | cons q ps ih =>
    intro init k
    show lastValFrom (if q.1 = k then some q.2 else init) ps k = _
    rw [ih]
    have hq : lastVal (q :: ps) k = (lastVal ps k).or (if q.1 = k then some q.2 else none) := by
      show lastValFrom (if q.1 = k then some q.2 else none) ps k = _
      rw [ih]
    rw [hq]
    cases hlv : lastVal ps k with
    | some v => rfl
    | none =>
      by_cases hqk : q.1 = k
      · rw [if_pos hqk, if_pos hqk]
        rfl
      · rw [if_neg hqk, if_neg hqk]
        rfl

theorem lookup_insertAll : ∀ (ps : List (String × PyVal)) (acc : PyFields) (k : String),
    (insertAll acc ps).lookup? k = ((lastVal ps k).or (acc.lookup? k)) := by
  intro ps
  induction ps with
  | nil => intro acc k; rfl
  | cons p ps ih =>
    intro acc k
    show (insertAll (dictInsert acc p.1 p.2) ps).lookup? k = _
    rw [ih]
    have hq : lastVal (p :: ps) k = (lastVal ps k).or (if p.1 = k then some p.2 else none) := by
      show lastValFrom (if p.1 = k then some p.2 else none) ps k = _
      rw [lastValFrom_or]
    rw [hq]
    cases hlv : lastVal ps k with
    | some v => rfl
    | none =>
      by_cases hpk : p.1 = k
      · rw [if_pos hpk]
        show (dictInsert acc p.1 p.2).lookup? k = _
        rw [hpk]
        rw [lookup_dictInsert_self]
        rfl
      · rw [if_neg hpk]
        show (dictInsert acc p.1 p.2).lookup? k = _
        rw [lookup_dictInsert_other acc p.1 k p.2 hpk]
        rfl

/-- C7: for a document buffer whose element walk yields the trace `ps`
containing the name `k` two or more times, `to_dict` produces the fold of
the trace by dict assignment, in which `k` is bound to the value of the
last element with that name in buffer order. -/
theorem duplicate_keys_last_wins (fuel : Nat) (data : Bytes)
    (ps : List (String × PyVal)) (rest : Bytes) (k : String)
    (hps : documentToPairs fuel data = some (.ok (ps, rest)))
    (hdup : 2 ≤ (ps.map Prod.fst).count k) :
    to_dict fuel data = some (.ok (insertAll .nil ps)) ∧
    (insertAll .nil ps).lookup? k = lastVal ps k := by
  constructor
  · cases fuel with
    | zero => exact absurd hps (by simp [documentToPairs])
    | succ f =>
      simp only [documentToPairs] at hps
      cases hu : unpackInt32 data with
      | none => simp only [hu] at hps; simp at hps
      | some objSize =>
        simp only [hu] at hps
        cases hep : elementsToPairs f (pySlice data 4 (objSize - 1)) with
        | none => simp only [hep] at hps; simp at hps
        | some res =>
          cases res with
          | error e => simp only [hep] at hps; simp at hps
          | ok ps' =>
            simp only [hep] at hps
            simp at hps
            obtain ⟨hps', hrest⟩ := hps
            subst hps'
            unfold to_dict
            simp only [_document_to_dict, hu]
            rw [elements_to_dict_eq_pairs f (pySlice data 4 (objSize - 1)) .nil]
            simp only [hep]
            rfl
  · rw [lookup_insertAll]
    show _ = lastVal ps k
    cases hlv : lastVal ps k with
    | some v => rfl
    | none => rfl

/-- Witness for C7: the document `0D 00 00 00 08 61 00 00 08 61 00 01 00`
with two Boolean elements both named `"a"` (values `False` then `True`). -/
theorem duplicate_keys_last_wins_witness :
    documentToPairs 9 [13, 0, 0, 0, 8, 97, 0, 0, 8, 97, 0, 1, 0] =
      some (.ok ([("a", .bool false), ("a", .bool true)], [])) ∧
    2 ≤ (([("a", PyVal.bool false), ("a", PyVal.bool true)]).map Prod.fst).count "a" ∧
    to_dict 9 [13, 0, 0, 0, 8, 97, 0, 0, 8, 97, 0, 1, 0] =
      some (.ok (insertAll .nil [("a", .bool false), ("a", .bool true)])) ∧
    (insertAll PyFields.nil
        [("a", PyVal.bool false), ("a", PyVal.bool true)]).lookup? "a" =
      lastVal [("a", PyVal.bool false), ("a", PyVal.bool true)] "a" := by
  refine ⟨rfl, by decide, ?_⟩
  exact duplicate_keys_last_wins 9 [13, 0, 0, 0, 8, 97, 0, 0, 8, 97, 0, 1, 0]
    [("a", .bool false), ("a", .bool true)] [] "a" rfl (by decide)

/-! ## Claim C6: array reconstruction -/

/-- The probe loop collects exactly the values at keys
`str i, str (i+1), ...` up to the first miss. -/
theorem buildArrayAux_spec (d : PyFields) : ∀ (fuel i : Nat) (vs : List PyVal),
    buildArrayAux d fuel i = some vs →
    (∀ j, j < vs.length → d.lookup? (natStr (i + j)) = vs.get? j) ∧
    d.lookup? (natStr (i + vs.length)) = none := by
  intro fuel
  induction fuel with
  | zero => intro i vs h; exact absurd h (by simp [buildArrayAux])
  | succ fuel ih =>
    intro i vs h
    simp only [buildArrayAux] at h
    cases hl : d.lookup? (natStr i) with
    | none =>
      simp only [hl] at h
      simp at h
      subst h
      refine ⟨fun j hj => absurd hj (by simp), ?_⟩
      simpa using hl
    | some v =>
      simp only [hl] at h
      cases hb : buildArrayAux d fuel (i + 1) with
      | none => simp only [hb] at h; simp at h
      | some tl =>
        simp only [hb] at h
        simp at h
        subst h
        obtain ⟨ih1, ih2⟩ := ih (i + 1) tl hb
        constructor
        · intro j hj
          cases j with
          | zero => simpa using hl
          | succ j' =>
            have : i + (j' + 1) = (i + 1) + j' := by omega
            rw [this]
            simp at hj
            exact ih1 j' (by omega)
        · have : i + (v :: tl).length = (i + 1) + tl.length := by simp; omega
          rw [this]
          exact ih2

/-- C6: a successful `_get_array` first decodes the wire form as an
embedded document into a mapping `d`, then the result list holds exactly
the values of `d` at keys `str 0, str 1, ...` in increasing order up to
the first absent index; every entry of `d` beyond that first gap is absent
from the result. -/
theorem get_array_spec (fuel : Nat) (data : Bytes) (v : PyVal) (rest : Bytes)
    (h : _get_array (fuel + 1) data = some (.ok (v, rest))) :
    ∃ d vs, _document_to_dict fuel data = some (.ok (d, rest)) ∧
      v = .list (pyListOfList vs) ∧
      (∀ j, j < vs.length → d.lookup? (natStr j) = vs.get? j) ∧
      d.lookup? (natStr vs.length) = none := by
  simp only [_get_array] at h
  cases hdd : _document_to_dict fuel data with
  | none => simp only [hdd] at h; simp at h
  | some res =>
    cases res with
    | error e => simp only [hdd] at h; simp at h
    | ok dr =>
      obtain ⟨d, r⟩ := dr
      simp only [hdd] at h
      cases hba : buildArrayAux d (d.size + 1) 0 with
      | none => simp only [hba] at h; simp at h
      | some vs =>
        simp only [hba] at h
        simp at h
        obtain ⟨hv, hr⟩ := h
        subst hr
        obtain ⟨h1, h2⟩ := buildArrayAux_spec d (d.size + 1) 0 vs hba
        refine ⟨d, vs, rfl, hv.symm, fun j hj => ?_, ?_⟩
        · have := h1 j hj
          simpa using this
        · simpa using h2

/-! ## C-string round trip -/

theorem contains_append_nul (l r : List Nat) : (l ++ 0 :: r).contains 0 = true := by
  induction l with
  | nil => rfl
  | cons a l ih =>
    show ((a :: (l ++ 0 :: r)).contains 0) = true
    rw [List.contains_cons]
    rw [ih]
    simp

theorem indexOf_append_nul (l r : List Nat) (h : ∀ b ∈ l, b ≠ 0) :
    (l ++ 0 :: r).indexOf 0 = l.length := by
  induction l with
  | nil => rfl
  | cons a l ih =>
    show ((a :: (l ++ 0 :: r)).indexOf 0) = l.length + 1
    rw [List.indexOf_cons]
    have ha : (a == 0) = false := by
      have := h a (List.mem_cons_self a l)
      simp [this]
    rw [ha]
    simp only [cond_false]
    rw [ih (fun b hb => h b (List.mem_cons_of_mem a hb))]

theorem drop_append_succ (l r : List Nat) (a : Nat) :
    (l ++ a :: r).drop (l.length + 1) = r := by
  induction l with
  | nil => rfl
  | cons x l ih =>
    show ((x :: (l ++ a :: r)).drop (l.length + 1 + 1)) = r
    rw [List.drop_succ_cons]
    exact ih

/-- `_get_c_string` inverts `_make_c_string` on NUL-free text. -/
theorem get_c_string_make (s : String) (hs : ∀ c ∈ s.data, c.toNat ≠ 0) (rest : Bytes) :
    _get_c_string (_make_c_string s ++ rest) = .ok (s, rest) := by
  have hnul : ∀ b ∈ utf8Encode s, b ≠ 0 := utf8EncodeList_not_nul s.data hs
  have harr : _make_c_string s ++ rest = utf8Encode s ++ 0 :: rest := by
    unfold _make_c_string
    rw [List.append_assoc]
    rfl
  rw [harr]
  unfold _get_c_string
  rw [if_pos (by rw [contains_append_nul]),
    indexOf_append_nul (utf8Encode s) rest hnul]
  rw [List.take_left]
  rw [utf8Decode_encode s]
  rw [drop_append_succ]

theorem make_c_string_length_pos (s : String) : 0 < (_make_c_string s).length := by
  unfold _make_c_string
  simp

theorem make_c_string_getLast (s : String) (rest : Bytes) :
    ((_make_c_string s ++ rest).take (_make_c_string s).length) = _make_c_string s := by
  rw [List.take_left]

/-! ## Name-pattern facts -/

theorem beq_char_false (c a : Char) (h : c.toNat ≠ a.toNat) : (c == a) = false := by
  cases hb : c == a
  · rfl
  · exfalso
    have : c = a := eq_of_beq hb
    rw [this] at h
    exact h rfl

theorem contains_newline_false (l : List Char) (h : ∀ c ∈ l, c.toNat ≠ 10) :
    l.contains '\n' = false := by
  induction l with
  | nil => rfl
  | cons a l ih =>
    rw [List.contains_cons]
    have hne : ('\n' : Char).toNat ≠ a.toNat := by
      have ha := h a (List.mem_cons_self a l)
      have h10 : ('\n' : Char).toNat = 10 := rfl
      omega
    rw [beq_char_false '\n' a hne]
    rw [ih (fun c hc => h c (List.mem_cons_of_mem a hc))]
    rfl

theorem keyOk_matchAnyName (k : String) (h : keyOk k = true) : matchAnyName k = true := by
  unfold keyOk at h
  rw [List.all_eq_true] at h
  unfold matchAnyName
  have : k.data.contains '\n' = false := by
    apply contains_newline_false
    intro c hc
    have := h c hc
    simp at this
    exact this.2
  rw [this]
  rfl

theorem keyOk_noNul (k : String) (h : keyOk k = true) : noNul k = true := by
  unfold keyOk at h
  unfold noNul
  rw [List.all_eq_true] at h ⊢
  intro c hc
  have := h c hc
  simp at this ⊢
  exact this.1

theorem noNul_chars (k : String) (h : noNul k = true) : ∀ c ∈ k.data, c.toNat ≠ 0 := by
  unfold noNul at h
  rw [List.all_eq_true] at h
  intro c hc
  have := h c hc
  simpa using this

theorem natDigitsAux_toNat_bounds : ∀ fuel n, n < fuel →
    ∀ c ∈ natDigitsAux fuel n, 48 ≤ c.toNat ∧ c.toNat ≤ 57 := by
  intro fuel
  induction fuel with
  | zero => intro n h; omega
  | succ fuel ih =>
    intro n h c hc
    unfold natDigitsAux at hc
    by_cases hn : n < 10
    · simp only [hn, if_true] at hc
      simp at hc
      subst hc
      rw [digitChar_toNat n hn]
      omega
    · simp only [hn, if_false] at hc
      rw [List.mem_append] at hc
      rcases hc with hc | hc
      · exact ih (n / 10) (by omega) c hc
      · simp at hc
        subst hc
        rw [digitChar_toNat (n % 10) (by omega)]
        omega

theorem natStr_keyOk (n : Nat) : keyOk (natStr n) = true := by
  unfold keyOk
  rw [List.all_eq_true]
  intro c hc
  have := natDigitsAux_toNat_bounds (n + 1) n (by omega) c hc
  simp
  omega

theorem natStr_matchAnyName (n : Nat) : matchAnyName (natStr n) = true :=
  keyOk_matchAnyName _ (natStr_keyOk n)

theorem natStr_noNul (n : Nat) : noNul (natStr n) = true :=
  keyOk_noNul _ (natStr_keyOk n)

theorem natStr_getLast_ne_newline (n : Nat) :
    ((natStr n).data.getLast? == some '\n') = false := by
  cases hl : (natStr n).data.getLast? with
  | none => rfl
  | some c =>
    have hmem : c ∈ (natStr n).data := by
      obtain ⟨hne, heq⟩ := List.mem_getLast?_eq_getLast (l := (natStr n).data) (x := c)
        (by rw [hl]; rfl)
      rw [heq]
      exact List.getLast_mem hne
    have hb := natDigitsAux_toNat_bounds (n + 1) n (by omega) c hmem
    show (some c == some '\n') = false
    have hc : (c == '\n') = false := beq_char_false c '\n' (by
      show c.toNat ≠ 10
      omega)
    simp [hc]

theorem natStr_matchDigitName (n : Nat) : matchDigitName (natStr n) = true := by
  unfold matchDigitName
  rw [natStr_getLast_ne_newline n]
  simp only [if_false, Bool.false_eq_true]
  have h1 : (natStr n).data ≠ [] := natDigitsAux_ne_nil n
  have h2 : (natStr n).data.all Char.isDigit = true := by
    rw [List.all_eq_true]
    intro c hc
    simpa using natStr_digits c hc
  simp [h1, h2]

theorem packInt32_range (n : Int) (nb : Bytes) (h : packInt32 n = some nb) :
    -2147483648 ≤ n ∧ n < 2147483648 := by
  unfold packInt32 at h
  split at h
  case isTrue hr => omega
  case isFalse => exact absurd h (by simp)

/-! ## Field folds -/

theorem appendF_nil : (acc : PyFields) → appendF acc .nil = acc
  | .nil => rfl
  | .cons k v r => by
    show PyFields.cons k v (appendF r .nil) = _
    rw [appendF_nil r]

theorem appendF_assoc : (a : PyFields) → ∀ b c,
    appendF (appendF a b) c = appendF a (appendF b c)
  | .nil, _, _ => rfl
  | .cons k v r, b, c => by
    show PyFields.cons k v (appendF (appendF r b) c) = PyFields.cons k v (appendF r (appendF b c))
    rw [appendF_assoc r b c]

theorem lookup_appendF : (a : PyFields) → ∀ (b : PyFields) (k : String),
    (appendF a b).lookup? k = (a.lookup? k).or (b.lookup? k)
  | .nil, b, k => rfl
  | .cons k' v' r, b, k => by
    show (if k' = k then some v' else (appendF r b).lookup? k) =
      (if k' = k then some v' else r.lookup? k).or (b.lookup? k)
    by_cases h : k' = k
    · rw [if_pos h, if_pos h]
      rfl
    · rw [if_neg h, if_neg h]
      exact lookup_appendF r b k

theorem dictInsert_fresh : (acc : PyFields) → ∀ (k : String) (v : PyVal),
    acc.lookup? k = none → dictInsert acc k v = appendF acc (.cons k v .nil)
  | .nil, k, v, _ => rfl
  | .cons k' v' r, k, v, h => by
    unfold PyFields.lookup? at h
    by_cases hk : k' = k
    · rw [if_pos hk] at h
      exact absurd h (by simp)
    · rw [if_neg hk] at h
      unfold dictInsert
      rw [if_neg hk]
      show PyFields.cons k' v' (dictInsert r k v) = PyFields.cons k' v' (appendF r (.cons k v .nil))
      rw [dictInsert_fresh r k v h]

theorem insertFields_fresh : (d : PyFields) → ∀ (acc : PyFields),
    d.keyList.Nodup → (∀ k ∈ d.keyList, acc.lookup? k = none) →
    insertFields acc d = appendF acc d
  | .nil, acc, _, _ => (appendF_nil acc).symm
  | .cons k v r, acc, hnd, hfree => by
    show insertFields (dictInsert acc k v) r = _
    have hk : acc.lookup? k = none := hfree k (by show k ∈ k :: r.keyList; simp)
    rw [dictInsert_fresh acc k v hk]
    have hnd' : r.keyList.Nodup ∧ k ∉ r.keyList := by
      have : (PyFields.cons k v r).keyList = k :: r.keyList := rfl
      rw [this] at hnd
      rw [List.nodup_cons] at hnd
      exact ⟨hnd.2, hnd.1⟩
    rw [insertFields_fresh r (appendF acc (.cons k v .nil)) hnd'.1 (by
      intro k2 hk2
      rw [lookup_appendF]
      rw [hfree k2 (by show k2 ∈ k :: r.keyList; simp [hk2])]
      show PyFields.lookup? (.cons k v .nil) k2 = none
      unfold PyFields.lookup?
      rw [if_neg (by
        intro he
        rw [he] at hnd'
        exact hnd'.2 hk2)]
      rfl)]
    rw [appendF_assoc]
    rfl

theorem insertFields_nil_eq (d : PyFields) (hnd : d.keyList.Nodup) :
    insertFields .nil d = d :=
  insertFields_fresh d .nil hnd (fun _ _ => rfl)

/-! ## Array documents built from lists -/

theorem pyListOfList_listOfPyList : (l : PyList) → pyListOfList (listOfPyList l) = l
  | .nil => rfl
  | .cons v r => by
    show PyList.cons v (pyListOfList (listOfPyList r)) = _
    rw [pyListOfList_listOfPyList r]

theorem wfFields_fieldsOfPyListAux : (l : PyList) → ∀ i, wfList l = true →
    wfFields (fieldsOfPyListAux i l) = true
  | .nil, _, _ => rfl
  | .cons v r, i, h => by
    have h' : wfValue v = true ∧ wfList r = true := by
      have : wfList (.cons v r) = (wfValue v && wfList r) := rfl
      rw [this] at h
      exact ⟨(Bool.and_eq_true _ _).mp h |>.1, (Bool.and_eq_true _ _).mp h |>.2⟩
    show wfFields (.cons (natStr i) v (fieldsOfPyListAux (i + 1) r)) = true
    have : wfFields (.cons (natStr i) v (fieldsOfPyListAux (i + 1) r)) =
        (wfValue v && wfFields (fieldsOfPyListAux (i + 1) r)) := rfl
    rw [this, h'.1, wfFields_fieldsOfPyListAux r (i + 1) h'.2]
    rfl

theorem mem_keyList_fieldsOfPyListAux : (l : PyList) → ∀ i k,
    k ∈ (fieldsOfPyListAux i l).keyList → ∃ j, k = natStr (i + j)
  | .nil, i, k, h => absurd h (by simp [fieldsOfPyListAux, PyFields.keyList])
  | .cons v r, i, k, h => by
    have : (fieldsOfPyListAux i (.cons v r)).keyList =
        natStr i :: (fieldsOfPyListAux (i + 1) r).keyList := rfl
    rw [this] at h
    rcases List.mem_cons.mp h with h | h
    · exact ⟨0, by simpa using h⟩
    · obtain ⟨j, hj⟩ := mem_keyList_fieldsOfPyListAux r (i + 1) k h
      exact ⟨j + 1, by rw [hj]; congr 1; omega⟩

theorem nodup_keyList_fieldsOfPyListAux : (l : PyList) → ∀ i,
    (fieldsOfPyListAux i l).keyList.Nodup
  | .nil, _ => List.nodup_nil
  | .cons v r, i => by
    have heq : (fieldsOfPyListAux i (.cons v r)).keyList =
        natStr i :: (fieldsOfPyListAux (i + 1) r).keyList := rfl
    rw [heq, List.nodup_cons]
    constructor
    · intro hmem
      obtain ⟨j, hj⟩ := mem_keyList_fieldsOfPyListAux r (i + 1) (natStr i) hmem
      have := natStr_injective hj
      omega
    · exact nodup_keyList_fieldsOfPyListAux r (i + 1)

theorem rawListElements_eq : (l : PyList) → ∀ i,
    rawListElements i l = rawElements (fieldsOfPyListAux i l)
  | .nil, _ => rfl
  | .cons v r, i => by
    show (match rawValue v with
      | .error e => .error e
      | .ok (t, payload) =>
        match rawListElements (i + 1) r with
        | .error e => .error e
        | .ok rb => .ok ((t :: (_make_c_string (natStr i) ++ payload)) ++ rb)) =
      rawElements (.cons (natStr i) v (fieldsOfPyListAux (i + 1) r))
    rw [rawListElements_eq r (i + 1)]
    rfl

theorem size_fieldsOfPyListAux : (l : PyList) → ∀ i,
    (fieldsOfPyListAux i l).size = (listOfPyList l).length
  | .nil, _ => rfl
  | .cons v r, i => by
    show (fieldsOfPyListAux (i + 1) r).size + 1 = (listOfPyList r).length + 1
    rw [size_fieldsOfPyListAux r (i + 1)]

theorem lookup_fields_lt : (l : PyList) → ∀ i j, j < (listOfPyList l).length →
    (fieldsOfPyListAux i l).lookup? (natStr (i + j)) = (listOfPyList l).get? j
  | .nil, _, j, hj => absurd hj (by simp [listOfPyList])
  | .cons v r, i, j, hj => by
    show (PyFields.cons (natStr i) v (fieldsOfPyListAux (i + 1) r)).lookup? (natStr (i + j)) = _
    unfold PyFields.lookup?
    cases j with
    | zero => rw [if_pos (by congr 1)]; rfl
    | succ j' =>
      rw [if_neg (by
        intro he
        have := natStr_injective he
        omega)]
      have : i + (j' + 1) = (i + 1) + j' := by omega
      rw [this]
      rw [lookup_fields_lt r (i + 1) j' (by
        have : (listOfPyList (.cons v r)).length = (listOfPyList r).length + 1 := rfl
        omega)]
      rfl

theorem lookup_fields_ge : (l : PyList) → ∀ i m, (listOfPyList l).length ≤ m →
    (fieldsOfPyListAux i l).lookup? (natStr (i + m)) = none
  | .nil, _, _, _ => rfl
  | .cons v r, i, m, hm => by
    show (PyFields.cons (natStr i) v (fieldsOfPyListAux (i + 1) r)).lookup? (natStr (i + m)) = _
    unfold PyFields.lookup?
    have hm1 : 1 ≤ m := by
      have : (listOfPyList (.cons v r)).length = (listOfPyList r).length + 1 := rfl
      omega
    rw [if_neg (by
      intro he
      have := natStr_injective he
      omega)]
    have : i + m = (i + 1) + (m - 1) := by omega
    rw [this]
    exact lookup_fields_ge r (i + 1) (m - 1) (by
      have : (listOfPyList (.cons v r)).length = (listOfPyList r).length + 1 := rfl
      omega)

theorem buildArrayAux_complete : ∀ (vs : List PyVal) (d : PyFields) (fuel i : Nat),
    vs.length + 1 ≤ fuel →
    (∀ j, j < vs.length → d.lookup? (natStr (i + j)) = vs.get? j) →
    d.lookup? (natStr (i + vs.length)) = none →
    buildArrayAux d fuel i = some vs := by
  intro vs
  induction vs with
  | nil =>
    intro d fuel i hf _ hnone
    cases fuel with
    | zero => omega
    | succ fuel =>
      simp only [buildArrayAux]
      have hn : d.lookup? (natStr i) = none := by simpa using hnone
      rw [hn]
  | cons v vs ih =>
    intro d fuel i hf hlt hnone
    cases fuel with
    | zero => simp at hf
    | succ fuel =>
      simp only [buildArrayAux]
      have h0 : d.lookup? (natStr i) = some v := by
        have := hlt 0 (by simp)
        simpa using this
      rw [h0]
      rw [ih d fuel (i + 1) (by simp at hf ⊢; omega)
        (fun j hj => by
          have := hlt (j + 1) (by simp; omega)
          have he : i + (j + 1) = (i + 1) + j := by omega
          rw [he] at this
          simpa using this)
        (by
          have he : (i + 1) + vs.length = i + (v :: vs).length := by simp; omega
          rw [he]
          exact hnone)]

theorem int_to_bson_ok (n : Int) (lenB : Bytes) (h : _int_to_bson n = .ok lenB) :
    packInt32 n = some lenB := by
  unfold _int_to_bson at h
  cases hp : packInt32 n with
  | none => rw [hp] at h; exact absurd h (by simp)
  | some b => rw [hp] at h; simp at h; rw [h]

/-! ## Document framing of encoder output -/

theorem slice_doc_body (lenB eb rest : Bytes) (h4 : lenB.length = 4) :
    pySlice (lenB ++ eb ++ [0] ++ rest) 4 ((eb.length : Int) + 5) = eb ++ [0] := by
  unfold pySlice pyBound
  rw [if_neg (by omega : ¬((eb.length : Int) + 5 < 0)),
    if_neg (by omega : ¬((4 : Int) < 0))]
  have ht : ((eb.length : Int) + 5).toNat = eb.length + 5 := by omega
  rw [ht]
  have hre : lenB ++ eb ++ [0] ++ rest = (lenB ++ eb ++ [0]) ++ rest := by
    simp [List.append_assoc]
  rw [hre]
  rw [List.take_left' (by simp [h4]; omega)]
  rw [show ((4 : Int)).toNat = 4 from rfl]
  rw [List.append_assoc lenB eb [0]]
  exact List.drop_left' h4

theorem slice_doc_elements (lenB eb rest : Bytes) (h4 : lenB.length = 4) :
    pySlice (lenB ++ eb ++ [0] ++ rest) 4 ((eb.length : Int) + 5 - 1) = eb := by
  unfold pySlice pyBound
  rw [if_neg (by omega : ¬((eb.length : Int) + 5 - 1 < 0)),
    if_neg (by omega : ¬((4 : Int) < 0))]
  have ht : ((eb.length : Int) + 5 - 1).toNat = eb.length + 4 := by omega
  rw [ht]
  have hre : lenB ++ eb ++ [0] ++ rest = (lenB ++ eb) ++ ([0] ++ rest) := by
    simp [List.append_assoc]
  rw [hre]
  rw [List.take_left' (by simp [h4]; omega)]
  rw [show ((4 : Int)).toNat = 4 from rfl]
  exact List.drop_left' h4

theorem slice_doc_rem (lenB eb rest : Bytes) (h4 : lenB.length = 4) :
    pySliceFrom (lenB ++ eb ++ [0] ++ rest) ((eb.length : Int) + 5) = rest := by
  unfold pySliceFrom pyBound
  rw [if_neg (by omega : ¬((eb.length : Int) + 5 < 0))]
  have ht : ((eb.length : Int) + 5).toNat = eb.length + 5 := by omega
  rw [ht]
  have hre : lenB ++ eb ++ [0] ++ rest = (lenB ++ eb ++ [0]) ++ rest := by
    simp [List.append_assoc]
  rw [hre]
  exact List.drop_left' (by simp [h4]; omega)

theorem unpack_doc (lenB eb rest : Bytes)
    (hpack : packInt32 ((eb.length : Int) + 5) = some lenB) :
    unpackInt32 (lenB ++ eb ++ [0] ++ rest) = some ((eb.length : Int) + 5) := by
  have hre : lenB ++ eb ++ [0] ++ rest = lenB ++ (eb ++ ([0] ++ rest)) := by
    simp [List.append_assoc]
  rw [hre]
  exact unpackInt32_pack _ _ hpack _

/-- Elements-level round trip yields the document-level round trip. -/
theorem SE_to_SD (d : PyFields) (hse : SE d) : SD d := by
  intro hwf db hdb
  unfold rawDoc at hdb
  cases hre : rawElements d with
  | error e => simp [hre] at hdb
  | ok eb =>
    simp only [hre] at hdb
    cases hpk : _int_to_bson ((eb.length : Int) + 5) with
    | error e => simp [hpk] at hdb
    | ok lenB =>
      simp only [hpk] at hdb
      simp at hdb
      have hdb' : lenB ++ eb ++ [0] = db := by rw [List.append_assoc]; exact hdb
      have hpack : packInt32 ((eb.length : Int) + 5) = some lenB := int_to_bson_ok _ _ hpk
      have h4 : lenB.length = 4 := packInt32_length _ _ hpack
      have hdblen : db.length = eb.length + 5 := by
        rw [← hdb']
        simp only [List.length_append, List.length_cons, List.length_nil, h4]
        omega
      obtain ⟨hval, henc, hdec⟩ := hse hwf eb hre
      have hun : ∀ rest, unpackInt32 (db ++ rest) = some ((eb.length : Int) + 5) := by
        intro rest
        rw [← hdb']
        rw [show lenB ++ eb ++ [0] ++ rest = lenB ++ (eb ++ ([0] ++ rest)) by
          simp [List.append_assoc]]
        exact unpackInt32_pack _ _ hpack _
      have hbody : ∀ rest, pySlice (db ++ rest) 4 ((eb.length : Int) + 5) = eb ++ [0] := by
        intro rest
        rw [← hdb']
        exact slice_doc_body lenB eb rest h4
      have helems : ∀ rest, pySlice (db ++ rest) 4 ((eb.length : Int) + 5 - 1) = eb := by
        intro rest
        rw [← hdb']
        exact slice_doc_elements lenB eb rest h4
      have hrem : ∀ rest, pySliceFrom (db ++ rest) ((eb.length : Int) + 5) = rest := by
        intro rest
        rw [← hdb']
        exact slice_doc_rem lenB eb rest h4
      have hvalidate : ∀ mode,
          (∀ k ∈ d.keyList,
            noNul k = true ∧ (if mode then matchDigitName k else matchAnyName k) = true) →
          ∀ f rest, 3 * db.length ≤ f →
            _validate_document f mode (db ++ rest) = some (.ok rest) := by
        intro mode hnames f rest hf
        cases f with
        | zero => omega
        | succ f' =>
          simp only [_validate_document, hun rest]
          rw [hbody rest]
          rw [if_pos (by
            simp only [List.length_append]
            push_cast
            omega)]
          rw [if_neg (by simp)]
          simp only [List.getLast?_concat]
          rw [if_pos trivial]
          rw [List.dropLast_concat]
          simp only [hval mode hnames f' (by omega : 3 * eb.length + 1 ≤ f')]
          rw [hrem rest]
      refine ⟨hvalidate, ?_, ?_⟩
      · intro hkeys f hf
        cases f with
        | zero => omega
        | succ f' =>
          have hvd := hvalidate false
            (fun k hk => ⟨keyOk_noNul k (hkeys k hk), by
              show matchAnyName k = true
              exact keyOk_matchAnyName k (hkeys k hk)⟩)
            f' [] (by omega)
          rw [List.append_nil] at hvd
          have hisv : is_valid f' db = some (.ok true) := by
            unfold is_valid
            simp only [hvd, List.isEmpty_nil]
          simp only [from_dict, henc f' (by omega : 3 * eb.length + 1 ≤ f'), hpk]
          rw [hdb']
          simp only [hisv]
      · intro hnd hnn f rest hf
        cases f with
        | zero => omega
        | succ f' =>
          simp only [_document_to_dict, hun rest]
          rw [helems rest]
          simp only [hdec hnn f' PyFields.nil (by omega : 3 * eb.length + 1 ≤ f')]
          rw [insertFields_nil_eq d hnd]
          rw [hrem rest]

theorem buildArray_fields (l : PyList) :
    buildArrayAux (fieldsOfPyListAux 0 l) ((fieldsOfPyListAux 0 l).size + 1) 0 =
      some (listOfPyList l) := by
  apply buildArrayAux_complete
  · rw [size_fieldsOfPyListAux l 0]
  · intro j hj
    have := lookup_fields_lt l 0 j hj
    simpa using this
  · have := lookup_fields_ge l 0 (listOfPyList l).length (le_refl _)
    simpa using this

/-- Witness for C6: the two-element array document
`10 00 00 00 10 30 00 01 00 00 00 08 31 00 01 00` (`{"0": 1, "1": True}`). -/
theorem get_array_spec_witness :
    _get_array 9 [16, 0, 0, 0, 16, 48, 0, 1, 0, 0, 0, 8, 49, 0, 1, 0] =
      some (.ok (.list (pyListOfList [PyVal.int 1, PyVal.bool true]), [])) ∧
    (∃ d vs, _document_to_dict 8 [16, 0, 0, 0, 16, 48, 0, 1, 0, 0, 0, 8, 49, 0, 1, 0] =
        some (.ok (d, [])) ∧
      PyVal.list (pyListOfList [PyVal.int 1, PyVal.bool true]) = .list (pyListOfList vs) ∧
      (∀ j, j < vs.length → d.lookup? (natStr j) = vs.get? j) ∧
      d.lookup? (natStr vs.length) = none) :=
  ⟨rfl, get_array_spec 8 [16, 0, 0, 0, 16, 48, 0, 1, 0, 0, 0, 8, 49, 0, 1, 0]
    (.list (pyListOfList [PyVal.int 1, PyVal.bool true])) [] rfl⟩

/-! ## Element payload helpers for the round trip -/

theorem get_int_pack (n : Int) (lenB tail : Bytes) (h : packInt32 n = some lenB) :
    _get_int (lenB ++ tail) = .ok (n, tail) := by
  unfold _get_int
  simp only [unpackInt32_pack n lenB h tail]
  rw [List.drop_left' (packInt32_length n lenB h)]

theorem pySliceFrom_exact (l r : Bytes) : pySliceFrom (l ++ r) ((l.length : Int)) = r := by
  unfold pySliceFrom pyBound
  rw [if_neg (by omega : ¬((l.length : Int) < 0))]
  rw [show ((l.length : Int)).toNat = l.length by omega]
  exact List.drop_left l r

theorem pyIndexGet_mcs (s : String) (rest : Bytes) :
    pyIndexGet (_make_c_string s ++ rest) (((_make_c_string s).length : Int) - 1) = .ok 0 := by
  unfold pyIndexGet
  have hpos := make_c_string_length_pos s
  simp only [if_neg (by omega : ¬((((_make_c_string s).length : Int)) - 1 < 0))]
  have htn : ((((_make_c_string s).length : Int)) - 1).toNat = (utf8Encode s).length := by
    have : (_make_c_string s).length = (utf8Encode s).length + 1 := by
      unfold _make_c_string
      simp
    omega
  rw [htn]
  have harr : _make_c_string s ++ rest = utf8Encode s ++ (0 :: rest) := by
    unfold _make_c_string
    rw [List.append_assoc]
    rfl
  rw [harr]
  rw [List.get?_append_right (le_refl _)]
  simp

theorem keysOkF_mem : (d : PyFields) → keysOkF d = true → ∀ k ∈ d.keyList, keyOk k = true
  | .nil, _, k, hk => absurd hk (by simp [PyFields.keyList])
  | .cons k' v r, h, k, hk => by
    have h' : keyOk k' = true ∧ keysOkF r = true := by
      rw [show keysOkF (.cons k' v r) = (keyOk k' && keysOkF r) from rfl] at h
      exact Bool.and_eq_true _ _ |>.mp h
    have hk' : k = k' ∨ k ∈ r.keyList := by
      rw [show (PyFields.cons k' v r).keyList = k' :: r.keyList from rfl] at hk
      exact List.mem_cons.mp hk
    rcases hk' with rfl | hk'
    · exact h'.1
    · exact keysOkF_mem r h'.2 k hk'

/-! ## Round trip, per-kind: leaf values -/

theorem SV_float (bits : Nat) : SV (.float bits) := by
  intro hwf tag pl hraw
  have hraw' : (Except.ok (1, packBits64 bits) : Except PyErr (Nat × Bytes)) =
      .ok (tag, pl) := hraw
  have hb : bits < 18446744073709551616 := by
    have h := hwf
    rw [show wfValue (.float bits) = decide (bits < 18446744073709551616) from rfl] at h
    exact of_decide_eq_true h
  injection hraw' with h
  obtain ⟨htag, hpl⟩ := Prod.mk.injEq _ _ _ _ |>.mp h
  subst htag
  subst hpl
  have h8 : (packBits64 bits).length = 8 := packBits64_length bits
  refine ⟨?_, ?_, ?_⟩
  · intro f hf
    cases f with
    | zero => omega
    | succ f1 => rfl
  · intro f rest hf
    cases f with
    | zero => omega
    | succ f1 =>
      show some (_validate_number (packBits64 bits ++ rest)) = some (.ok rest)
      unfold _validate_number
      rw [if_pos (by rw [List.length_append, h8]; omega)]
      rw [List.drop_left' h8]
  · intro f rest hf
    cases f with
    | zero => omega
    | succ f1 =>
      show some (_get_number (packBits64 bits ++ rest)) = some (.ok (.float bits, rest))
      unfold _get_number
      simp only [unpackBits64_pack bits hb rest]
      rw [List.drop_left' h8]

theorem SV_bool (b : Bool) : SV (.bool b) := by
  intro hwf tag pl hraw
  have hraw' : (Except.ok (8, [if b then 1 else 0]) : Except PyErr (Nat × Bytes)) =
      .ok (tag, pl) := hraw
  injection hraw' with h
  obtain ⟨htag, hpl⟩ := Prod.mk.injEq _ _ _ _ |>.mp h
  subst htag
  subst hpl
  refine ⟨?_, ?_, ?_⟩
  · intro f hf
    cases f with
    | zero => omega
    | succ f1 => rfl
  · intro f rest hf
    cases f with
    | zero => omega
    | succ f1 =>
      show some (_validate_boolean ([if b then 1 else 0] ++ rest)) = some (.ok rest)
      unfold _validate_boolean
      rw [if_pos (by simp)]
      rw [List.drop_left' (by rfl)]
  · intro f rest hf
    cases f with
    | zero => omega
    | succ f1 =>
      show some (_get_boolean ([if b then 1 else 0] ++ rest)) = some (.ok (.bool b, rest))
      cases b <;> rfl

theorem SV_int (n : Int) : SV (.int n) := by
  intro hwf tag pl hraw
  have hraw' : (match _int_to_bson n with
      | .error e => (Except.error e : Except PyErr (Nat × Bytes))
      | .ok nb => .ok (16, nb)) = .ok (tag, pl) := hraw
  cases hpk : _int_to_bson n with
  | error e =>
    simp only [hpk] at hraw'
    exact absurd hraw' (by simp)
  | ok nb =>
    simp only [hpk] at hraw'
    injection hraw' with h
    obtain ⟨htag, hpl⟩ := Prod.mk.injEq _ _ _ _ |>.mp h
    subst htag
    subst hpl
    have hpack : packInt32 n = some nb := int_to_bson_ok n nb hpk
    have h4 : nb.length = 4 := packInt32_length n nb hpack
    refine ⟨?_, ?_, ?_⟩
    · intro f hf
      cases f with
      | zero => omega
      | succ f1 =>
        have hstep : _value_to_bson (f1 + 1) (PyVal.int n) =
            (match _int_to_bson n with
              | Except.error e => some (Except.error e)
              | Except.ok nb => some (Except.ok (16, nb))) := rfl
        rw [hstep]
        simp only [hpk]
    · intro f rest hf
      cases f with
      | zero => omega
      | succ f1 =>
        show some (_validate_number_int (nb ++ rest)) = some (.ok rest)
        unfold _validate_number_int
        rw [if_pos (by rw [List.length_append, h4]; omega)]
        rw [List.drop_left' h4]
    · intro f rest hf
      cases f with
      | zero => omega
      | succ f1 =>
        have hstep : _element_getter (f1 + 1) 16 (nb ++ rest) =
            (match _get_int (nb ++ rest) with
              | Except.error e => some (Except.error e)
              | Except.ok (m, r) => some (Except.ok (PyVal.int m, r))) := rfl
        rw [hstep]
        simp only [get_int_pack n nb rest hpack]

theorem SV_str (s : String) : SV (.str s) := by
  intro hwf tag pl hraw
  have hs : ∀ c ∈ s.data, c.toNat ≠ 0 := noNul_chars s hwf
  have hraw' : (match _int_to_bson (((_make_c_string s).length : Int)) with
      | .error e => (Except.error e : Except PyErr (Nat × Bytes))
      | .ok lenB => .ok (2, lenB ++ _make_c_string s)) = .ok (tag, pl) := hraw
  cases hpk : _int_to_bson (((_make_c_string s).length : Int)) with
  | error e =>
    simp only [hpk] at hraw'
    exact absurd hraw' (by simp)
  | ok lenB =>
    simp only [hpk] at hraw'
    injection hraw' with h
    obtain ⟨htag, hpl⟩ := Prod.mk.injEq _ _ _ _ |>.mp h
    subst htag
    subst hpl
    have hpack : packInt32 (((_make_c_string s).length : Int)) = some lenB :=
      int_to_bson_ok _ _ hpk
    have h4 : lenB.length = 4 := packInt32_length _ _ hpack
    have harr : ∀ rest : Bytes,
        (lenB ++ _make_c_string s) ++ rest = lenB ++ (_make_c_string s ++ rest) :=
      fun rest => List.append_assoc _ _ _
    refine ⟨?_, ?_, ?_⟩
    · intro f hf
      cases f with
      | zero => omega
      | succ f1 =>
        have hstep : _value_to_bson (f1 + 1) (PyVal.str s) =
            (match _int_to_bson (((_make_c_string s).length : Int)) with
              | Except.error e => some (Except.error e)
              | Except.ok lenB => some (Except.ok (2, lenB ++ _make_c_string s))) := rfl
        rw [hstep]
        simp only [hpk]
    · intro f rest hf
      cases f with
      | zero => omega
      | succ f1 =>
        show some (_validate_string ((lenB ++ _make_c_string s) ++ rest)) = some (.ok rest)
        unfold _validate_string
        rw [harr rest]
        simp only [get_int_pack _ lenB (_make_c_string s ++ rest) hpack]
        rw [if_pos (by
          rw [List.length_append]
          push_cast
          omega)]
        simp only [pyIndexGet_mcs s rest]
        rw [if_pos trivial]
        rw [pySliceFrom_exact (_make_c_string s) rest]
    · intro f rest hf
      cases f with
      | zero => omega
      | succ f1 =>
        show some (_get_string ((lenB ++ _make_c_string s) ++ rest)) =
          some (.ok (.str s, rest))
        unfold _get_string
        rw [harr rest]
        rw [List.drop_left' h4]
        simp only [get_c_string_make s hs rest]

/-! ## Round trip, per-kind: containers -/

theorem SV_dict (d : PyFields) (hse : SE d) : SV (.dict d) := by
  intro hwf tag pl hraw
  have hw3 : keysOkF d = true ∧ d.keyList.Nodup ∧ wfFields d = true := by
    have h := hwf
    rw [show wfValue (.dict d) = (keysOkF d && decide d.keyList.Nodup && wfFields d)
      from rfl] at h
    simp only [Bool.and_eq_true, decide_eq_true_eq] at h
    exact ⟨h.1.1, h.1.2, h.2⟩
  obtain ⟨hko, hnd, hwfd⟩ := hw3
  have hkOk : ∀ k ∈ d.keyList, keyOk k = true := keysOkF_mem d hko
  have hraw' : (match rawElements d with
      | Except.error e => (Except.error e : Except PyErr (Nat × Bytes))
      | Except.ok elements =>
        match _int_to_bson ((elements.length : Int) + 5) with
        | Except.error e => Except.error e
        | Except.ok lenB => Except.ok (3, lenB ++ elements ++ [0])) = .ok (tag, pl) := hraw
  cases hre : rawElements d with
  | error e =>
    simp only [hre] at hraw'
    exact absurd hraw' (by simp)
  | ok eb =>
    simp only [hre] at hraw'
    cases hpk : _int_to_bson ((eb.length : Int) + 5) with
    | error e =>
      simp only [hpk] at hraw'
      exact absurd hraw' (by simp)
    | ok lenB =>
      simp only [hpk] at hraw'
      injection hraw' with h
      obtain ⟨htag, hpl⟩ := Prod.mk.injEq _ _ _ _ |>.mp h
      subst htag
      subst hpl
      have hdoc : rawDoc d = .ok (lenB ++ eb ++ [0]) := by
        unfold rawDoc
        simp only [hre, hpk]
      obtain ⟨hval, henc, hdec⟩ := SE_to_SD d hse hwfd _ hdoc
      refine ⟨?_, ?_, ?_⟩
      · intro f hf
        cases f with
        | zero => omega
        | succ f1 =>
          have hstep : _value_to_bson (f1 + 1) (PyVal.dict d) =
              (match from_dict f1 d with
                | none => none
                | some (Except.error e) => some (Except.error e)
                | some (Except.ok b) => some (Except.ok (3, b))) := rfl
          rw [hstep]
          simp only [henc hkOk f1 (by omega)]
      · intro f rest hf
        cases f with
        | zero => omega
        | succ f1 =>
          have hstep : _validate_element_data (f1 + 1) 3 ((lenB ++ eb ++ [0]) ++ rest) =
              _validate_document f1 false ((lenB ++ eb ++ [0]) ++ rest) := rfl
          rw [hstep]
          exact hval false (fun k hk => ⟨keyOk_noNul k (hkOk k hk), by
            show matchAnyName k = true
            exact keyOk_matchAnyName k (hkOk k hk)⟩) f1 rest (by omega)
      · intro f rest hf
        cases f with
        | zero => omega
        | succ f1 =>
          have hstep : _element_getter (f1 + 1) 3 ((lenB ++ eb ++ [0]) ++ rest) =
              (match _document_to_dict f1 ((lenB ++ eb ++ [0]) ++ rest) with
                | none => none
                | some (Except.error e) => some (Except.error e)
                | some (Except.ok (dd, r)) => some (Except.ok (PyVal.dict dd, r))) := rfl
          rw [hstep]
          simp only [hdec hnd (fun k hk => keyOk_noNul k (hkOk k hk)) f1 rest (by omega)]

theorem SV_list (l : PyList) (hse : SE (fieldsOfPyListAux 0 l)) : SV (.list l) := by
  intro hwf tag pl hraw
  have hwl : wfList l = true := hwf
  have hwfm : wfFields (fieldsOfPyListAux 0 l) = true := wfFields_fieldsOfPyListAux l 0 hwl
  have hnd : (fieldsOfPyListAux 0 l).keyList.Nodup := nodup_keyList_fieldsOfPyListAux l 0
  have hkOk : ∀ k ∈ (fieldsOfPyListAux 0 l).keyList, keyOk k = true := by
    intro k hk
    obtain ⟨j, hj⟩ := mem_keyList_fieldsOfPyListAux l 0 k hk
    rw [hj]
    exact natStr_keyOk _
  have hraw' : (match rawListElements 0 l with
      | Except.error e => (Except.error e : Except PyErr (Nat × Bytes))
      | Except.ok elements =>
        match _int_to_bson ((elements.length : Int) + 5) with
        | Except.error e => Except.error e
        | Except.ok lenB => Except.ok (4, lenB ++ elements ++ [0])) = .ok (tag, pl) := hraw
  rw [rawListElements_eq l 0] at hraw'
  cases hre : rawElements (fieldsOfPyListAux 0 l) with
  | error e =>
    simp only [hre] at hraw'
    exact absurd hraw' (by simp)
  | ok eb =>
    simp only [hre] at hraw'
    cases hpk : _int_to_bson ((eb.length : Int) + 5) with
    | error e =>
      simp only [hpk] at hraw'
      exact absurd hraw' (by simp)
    | ok lenB =>
      simp only [hpk] at hraw'
      injection hraw' with h
      obtain ⟨htag, hpl⟩ := Prod.mk.injEq _ _ _ _ |>.mp h
      subst htag
      subst hpl
      have hdoc : rawDoc (fieldsOfPyListAux 0 l) = .ok (lenB ++ eb ++ [0]) := by
        unfold rawDoc
        simp only [hre, hpk]
      obtain ⟨hval, henc, hdec⟩ := SE_to_SD _ hse hwfm _ hdoc
      refine ⟨?_, ?_, ?_⟩
      · intro f hf
        cases f with
        | zero => omega
        | succ f1 =>
          have hstep : _value_to_bson (f1 + 1) (PyVal.list l) =
              (match from_dict f1 (fieldsOfPyListAux 0 l) with
                | none => none
                | some (Except.error e) => some (Except.error e)
                | some (Except.ok b) => some (Except.ok (4, b))) := rfl
          rw [hstep]
          simp only [henc hkOk f1 (by omega)]
      · intro f rest hf
        cases f with
        | zero => omega
        | succ f1 =>
          have hstep : _validate_element_data (f1 + 1) 4 ((lenB ++ eb ++ [0]) ++ rest) =
              _validate_document f1 true ((lenB ++ eb ++ [0]) ++ rest) := rfl
          rw [hstep]
          refine hval true (fun k hk => ?_) f1 rest (by omega)
          obtain ⟨j, hj⟩ := mem_keyList_fieldsOfPyListAux l 0 k hk
          subst hj
          exact ⟨natStr_noNul _, by
            show matchDigitName (natStr (0 + j)) = true
            exact natStr_matchDigitName _⟩
      · intro f rest hf
        cases f with
        | zero => omega
        | succ f1 =>
          have hstep : _element_getter (f1 + 1) 4 ((lenB ++ eb ++ [0]) ++ rest) =
              _get_array f1 ((lenB ++ eb ++ [0]) ++ rest) := rfl
          rw [hstep]
          cases f1 with
          | zero => omega
          | succ f2 =>
            have hstep2 : _get_array (f2 + 1) ((lenB ++ eb ++ [0]) ++ rest) =
                (match _document_to_dict f2 ((lenB ++ eb ++ [0]) ++ rest) with
                  | none => none
                  | some (Except.error e) => some (Except.error e)
                  | some (Except.ok (dd, r)) =>
                    match buildArrayAux dd (dd.size + 1) 0 with
                    | none => none
                    | some vs => some (Except.ok (PyVal.list (pyListOfList vs), r))) := rfl
            rw [hstep2]
            simp only [hdec hnd (fun k hk => keyOk_noNul k (hkOk k hk)) f2 rest (by omega)]
            simp only [buildArray_fields l]
            rw [pyListOfList_listOfPyList l]

theorem SE_nil : SE .nil := by
  intro hwf eb hre
  have hre' : (Except.ok [] : Except PyErr Bytes) = .ok eb := hre
  injection hre' with h
  subst h
  refine ⟨?_, ?_, ?_⟩
  · intro mode hnames f hf
    cases f with
    | zero => omega
    | succ f1 => rfl
  · intro f hf
    cases f with
    | zero => omega
    | succ f1 => rfl
  · intro hnn f acc hf
    cases f with
    | zero => omega
    | succ f1 => rfl

theorem SE_cons (k : String) (v : PyVal) (r : PyFields) (hv : SV v) (hr : SE r) :
    SE (.cons k v r) := by
  intro hwf eb hre
  have hw : wfValue v = true ∧ wfFields r = true := by
    have h := hwf
    rw [show wfFields (.cons k v r) = (wfValue v && wfFields r) from rfl] at h
    exact Bool.and_eq_true _ _ |>.mp h
  obtain ⟨hwv, hwr⟩ := hw
  have hre' : (match rawValue v with
      | Except.error e => (Except.error e : Except PyErr Bytes)
      | Except.ok (t, payload) =>
        match rawElements r with
        | Except.error e => Except.error e
        | Except.ok rb => Except.ok ((t :: (_make_c_string k ++ payload)) ++ rb)) =
      .ok eb := hre
  cases hrv : rawValue v with
  | error e =>
    simp only [hrv] at hre'
    exact absurd hre' (by simp)
  | ok tp =>
    obtain ⟨t, payload⟩ := tp
    simp only [hrv] at hre'
    cases hrr : rawElements r with
    | error e =>
      simp only [hrr] at hre'
      exact absurd hre' (by simp)
    | ok rb =>
      simp only [hrr] at hre'
      injection hre' with heb
      obtain ⟨henc_v, hval_v, hget_v⟩ := hv hwv t payload hrv
      obtain ⟨hval_r, henc_r, hdec_r⟩ := hr hwr rb hrr
      have heb2 : eb = t :: (_make_c_string k ++ (payload ++ rb)) := by
        rw [← heb]
        simp [List.append_assoc]
      have hlen : eb.length =
          (_make_c_string k).length + payload.length + rb.length + 1 := by
        rw [heb2]
        simp only [List.length_cons, List.length_append]
        omega
      have hm1 : 1 ≤ (_make_c_string k).length := make_c_string_length_pos k
      refine ⟨?_, ?_, ?_⟩
      · intro mode hnames f hf
        obtain ⟨hkn, hkm⟩ := hnames k (show k ∈ k :: r.keyList from List.mem_cons_self k _)
        have hnames_r : ∀ k' ∈ r.keyList,
            noNul k' = true ∧ (if mode then matchDigitName k' else matchAnyName k') = true :=
          fun k' hk' => hnames k' (show k' ∈ k :: r.keyList from List.mem_cons_of_mem k hk')
        cases f with
        | zero => omega
        | succ f1 =>
          have hve : _validate_element f1 mode (t :: (_make_c_string k ++ (payload ++ rb))) =
              some (.ok rb) := by
            cases f1 with
            | zero => omega
            | succ f2 =>
              simp only [_validate_element]
              simp only [get_c_string_make k (noNul_chars k hkn) (payload ++ rb)]
              rw [hkm]
              rw [if_pos rfl]
              exact hval_v f2 rb (by omega)
          rw [heb2]
          simp only [_validate_elements]
          rw [if_neg (by simp)]
          simp only [hve]
          exact hval_r mode hnames_r f1 (by omega)
      · intro f hf
        cases f with
        | zero => omega
        | succ f1 =>
          have hee : _element_to_bson f1 k v =
              some (.ok (t :: (_make_c_string k ++ payload))) := by
            cases f1 with
            | zero => omega
            | succ f2 =>
              simp only [_element_to_bson]
              simp only [henc_v f2 (by omega)]
          simp only [_elements_to_bson]
          simp only [hee]
          simp only [henc_r f1 (by omega)]
          rw [heb]
      · intro hnn f acc hf
        have hkn : noNul k = true := hnn k (show k ∈ k :: r.keyList from List.mem_cons_self k _)
        have hnn_r : ∀ k' ∈ r.keyList, noNul k' = true :=
          fun k' hk' => hnn k' (show k' ∈ k :: r.keyList from List.mem_cons_of_mem k hk')
        cases f with
        | zero => omega
        | succ f1 =>
          have hed : _element_to_dict f1 (t :: (_make_c_string k ++ (payload ++ rb))) =
              some (.ok (k, v, rb)) := by
            cases f1 with
            | zero => omega
            | succ f2 =>
              simp only [_element_to_dict]
              simp only [get_c_string_make k (noNul_chars k hkn) (payload ++ rb)]
              simp only [hget_v f2 rb (by omega)]
          rw [heb2]
          simp only [_elements_to_dict]
          rw [if_neg (by simp)]
          simp only [hed]
          exact hdec_r hnn_r f1 (dictInsert acc k v) (by omega)

/-- Strong induction over the value size: every well-formed value and every
well-formed field list satisfies its round-trip invariant. -/
theorem SV_SE_master : ∀ n : Nat,
    (∀ v : PyVal, v.wsize ≤ n → SV v) ∧ (∀ d : PyFields, d.wsize ≤ n → SE d) := by
  intro n
  induction n using Nat.strong_induction_on with
  | _ n IH =>
    constructor
    · intro v hv
      cases v with
      | float bits => exact SV_float bits
      | str s => exact SV_str s
      | bool b => exact SV_bool b
      | int m => exact SV_int m
      | dict d =>
        refine SV_dict d ?_
        have hlt : d.wsize < n := by
          have hs : PyVal.wsize (.dict d) = d.wsize + 1 := rfl
          omega
        exact (IH d.wsize hlt).2 d (le_refl _)
      | list l =>
        refine SV_list l ?_
        have hlt : (fieldsOfPyListAux 0 l).wsize < n := by
          have hs : PyVal.wsize (.list l) = l.wsize + 1 := rfl
          have he := wsize_fieldsOfPyListAux l 0
          omega
        exact (IH _ hlt).2 _ (le_refl _)
    · intro d hd
      cases d with
      | nil => exact SE_nil
      | cons k v r =>
        have hs : PyFields.wsize (.cons k v r) = v.wsize + r.wsize + 1 := rfl
        refine SE_cons k v r ?_ ?_
        · exact (IH v.wsize (by omega)).1 v (le_refl _)
        · exact (IH r.wsize (by omega)).2 r (le_refl _)

theorem SV_all (v : PyVal) : SV v := (SV_SE_master v.wsize).1 v (le_refl _)

theorem SE_all (d : PyFields) : SE d := (SV_SE_master d.wsize).2 d (le_refl _)

/-- Counterexample to C1 as stated: the round trip is not universal over
mappings with text keys and supported values.  A key containing an interior
newline fails the `^.*$` name check that `from_dict` re-runs through
`BSON.__new__`, so encoding raises `InvalidBSON`; and a text value containing
a NUL character encodes and validates, but decoding desynchronizes
(`_get_string` stops at the first zero byte) and raises `InvalidBSON`. -/
theorem round_trip_not_universal :
    from_dict 60 (.cons "x\ny" (.bool true) .nil) = some (.error .invalidBSON) ∧
    (∃ db, from_dict 60 (.cons "a" (.str "\x00") .nil) = some (.ok db) ∧
      to_dict 60 db = some (.error .invalidBSON)) :=
  ⟨rfl, ⟨[14, 0, 0, 0, 2, 97, 0, 2, 0, 0, 0, 0, 0, 0], rfl, rfl⟩⟩

/-- C1 (amended): round trip for well-formed mappings.  `wfValue (.dict m)`
requires: keys free of NUL and newline characters and pairwise distinct,
text values free of NUL characters, floats carried as 64-bit patterns, and
this recursively at every nesting level; `rawDoc m = .ok db` states that
every encoded substructure fits the signed 32-bit length fields.  Then
`BSON.from_dict` returns exactly the document bytes `db`, and `to_dict`
on those bytes returns exactly the original mapping. -/
theorem round_trip (m : PyFields) (db : Bytes)
    (hwf : wfValue (.dict m) = true) (hraw : rawDoc m = .ok db)
    (f : Nat) (hf : 3 * db.length + 1 ≤ f) :
    from_dict f m = some (.ok db) ∧ to_dict f db = some (.ok m) := by
  have hw3 : keysOkF m = true ∧ m.keyList.Nodup ∧ wfFields m = true := by
    have h := hwf
    rw [show wfValue (.dict m) = (keysOkF m && decide m.keyList.Nodup && wfFields m)
      from rfl] at h
    simp only [Bool.and_eq_true, decide_eq_true_eq] at h
    exact ⟨h.1.1, h.1.2, h.2⟩
  obtain ⟨hko, hnd, hwfd⟩ := hw3
  have hkOk : ∀ k ∈ m.keyList, keyOk k = true := keysOkF_mem m hko
  obtain ⟨hval, henc, hdec⟩ := SE_to_SD m (SE_all m) hwfd db hraw
  constructor
  · exact henc hkOk f hf
  · unfold to_dict
    have hdd : _document_to_dict f (db ++ []) = some (.ok (m, [])) :=
      hdec hnd (fun k hk => keyOk_noNul k (hkOk k hk)) f [] (by omega)
    rw [List.append_nil] at hdd
    simp only [hdd]

/-- Witness for C1 at the mapping `{"a": 5}` and its twelve document
bytes. -/
theorem round_trip_witness :
    from_dict 100 (.cons "a" (.int 5) .nil) =
      some (.ok [12, 0, 0, 0, 16, 97, 0, 5, 0, 0, 0, 0]) ∧
    to_dict 100 [12, 0, 0, 0, 16, 97, 0, 5, 0, 0, 0, 0] =
      some (.ok (.cons "a" (.int 5) .nil)) :=
  round_trip (.cons "a" (.int 5) .nil) [12, 0, 0, 0, 16, 97, 0, 5, 0, 0, 0, 0]
    (by decide) rfl 100 (by decide)

end BsonModel
